import Mathlib

/-!
# Verification of the columnar cell-data model (`test-utils/cells/src/lib.rs`)

This file gives a shallow embedding of the `Cells` / `StructuredCells` /
`CellsView` data model and its row-level algorithms (sort, group, dedup,
count-distinct, filter, slice, projection, merge), and proves the stated
properties of those algorithms.

The per-column storage (`FieldData`, defined in `field.rs`) and the
bit-comparison capability (`BitsEq` / `BitsOrd`) are collaborators of the
embedded module; they are modelled from the specification: a physical value is
identified with its underlying bit representation, so bit-equality is equality
of representations and bit-ordering is a total order on representations.
-/

open scoped List

/-- Modelled from the spec: the bit-comparison capability (`BitsOrd`) for
variable-length byte values compares representations lexicographically. -/
def cmpBytes : List Nat → List Nat → Ordering
  | [], [] => .eq
  | [], _ :: _ => .lt
  | _ :: _, [] => .gt
  | a :: as, b :: bs => (compare a b).then (cmpBytes as bs)

/-- Modelled from the spec: a physical value is represented by its underlying
bit pattern — a fixed-width value by its bits read as a natural number, a
variable-length value by its byte sequence.  (`FieldData`'s element types live
in `field.rs`, outside the embedded file.) -/
inductive PhysValue where
  | bits (b : Nat)
  | bytes (bs : List Nat)
deriving DecidableEq, Inhabited, Repr

/-- Modelled from the spec: `BitsOrd::bits_cmp`, the total bit-order on
physical values ("comparison of underlying value representations rather than
numeric/value semantics"). -/
def PhysValue.bits_cmp : PhysValue → PhysValue → Ordering
  | .bits a, .bits b => compare a b
  | .bits _, .bytes _ => .lt
  | .bytes _, .bits _ => .gt
  | .bytes a, .bytes b => cmpBytes a b

/-- Modelled from the spec: `BitsEq::bits_eq` is bit-pattern equality. -/
def PhysValue.bits_eq (a b : PhysValue) : Bool := a == b

/-- Modelled from the spec: `bits_ne` is the negation of `bits_eq`. -/
def PhysValue.bits_ne (a b : PhysValue) : Bool := !(a.bits_eq b)

/-- The laws a bit-order comparator satisfies: reflexivity, antisymmetry of the
swap, and transitivity of the induced `≤` (`cmp · · ≠ .gt`). -/
structure TotalCmp {α : Type _} (f : α → α → Ordering) : Prop where
  refl : ∀ a, f a a = .eq
  swap : ∀ a b, (f a b).swap = f b a
  le_trans : ∀ a b c, f a b ≠ .gt → f b c ≠ .gt → f a c ≠ .gt

theorem TotalCmp.eq_of_le_of_ge {α : Type _} {f : α → α → Ordering}
    (hf : TotalCmp f) {a b : α} (h1 : f a b ≠ .gt) (h2 : f b a ≠ .gt) :
    f a b = .eq := by
  have hs := hf.swap a b
  cases h : f a b with
  | lt => rw [h] at hs; rw [← hs] at h2; simp [Ordering.swap] at h2
  | eq => rfl
  | gt => exact absurd h h1

theorem TotalCmp.le_total {α : Type _} {f : α → α → Ordering} (hf : TotalCmp f)
    (a b : α) : (f a b ≠ .gt) ∨ (f b a ≠ .gt) := by
  have hs := hf.swap a b
  cases h : f a b with
  | lt => exact Or.inl (by simp [h])
  | eq => exact Or.inl (by simp [h])
  | gt => rw [h] at hs; exact Or.inr (by rw [← hs]; simp [Ordering.swap])

theorem natCompare_totalCmp : TotalCmp (compare : Nat → Nat → Ordering) := by
  constructor
  · intro a; simp [Nat.compare_eq_eq]
  · intro a b; exact Nat.compare_swap a b
  · intro a b c h1 h2
    rw [Ne, Nat.compare_eq_gt] at h1 h2 ⊢
    omega

theorem ordering_swap_then (o p : Ordering) :
    (o.then p).swap = o.swap.then p.swap := by
  cases o <;> cases p <;> rfl

theorem cmpBytes_totalCmp : TotalCmp cmpBytes := by
  constructor
  · intro a
    induction a with
    | nil => rfl
    | cons x xs ih => simp [cmpBytes, Nat.compare_eq_eq.mpr rfl, Ordering.then, ih]
  · intro a b
    induction a generalizing b with
    | nil => cases b <;> rfl
    | cons x xs ih =>
      cases b with
      | nil => rfl
      | cons y ys =>
        simp only [cmpBytes]
        rw [ordering_swap_then, Nat.compare_swap, ih]
  · intro a b c h1 h2
    induction a generalizing b c with
    | nil =>
      cases b with
      | nil => exact h2
      | cons y ys => cases c <;> simp [cmpBytes]
    | cons x xs ih =>
      cases b with
      | nil => simp [cmpBytes] at h1
      | cons y ys =>
        cases c with
        | nil => simp [cmpBytes] at h2 ⊢
        | cons z zs =>
          simp only [cmpBytes] at h1 h2 ⊢
          rcases hxy : compare x y with _ | _ | _ <;> rw [hxy] at h1 <;>
            rcases hyz : compare y z with _ | _ | _ <;> rw [hyz] at h2 <;>
              simp [Ordering.then] at h1 h2 ⊢
          · rw [Nat.compare_eq_lt] at hxy hyz
            rw [Nat.compare_eq_lt.mpr (Nat.lt_trans hxy hyz)]
            simp [Ordering.then]
          · rw [Nat.compare_eq_lt] at hxy; rw [Nat.compare_eq_eq] at hyz
            rw [Nat.compare_eq_lt.mpr (hyz ▸ hxy)]
            simp [Ordering.then]
          · rw [Nat.compare_eq_eq] at hxy; rw [Nat.compare_eq_lt] at hyz
            rw [Nat.compare_eq_lt.mpr (hxy ▸ hyz)]
            simp [Ordering.then]
          · rw [Nat.compare_eq_eq] at hxy hyz
            rw [Nat.compare_eq_eq.mpr (hxy.trans hyz)]
            simp [Ordering.then]
            exact ih ys zs h1 h2

theorem cmpBytes_eq_iff {a b : List Nat} : cmpBytes a b = .eq ↔ a = b := by
  induction a generalizing b with
  | nil => cases b <;> simp [cmpBytes]
  | cons x xs ih =>
    cases b with
    | nil => simp [cmpBytes]
    | cons y ys =>
      simp only [cmpBytes]
      rcases hxy : compare x y with _ | _ | _ <;> simp [Ordering.then]
      · rw [Nat.compare_eq_lt] at hxy; omega
      · rw [Nat.compare_eq_eq] at hxy; simp [hxy, ih]
      · rw [Nat.compare_eq_gt] at hxy; omega

theorem bits_cmp_totalCmp : TotalCmp PhysValue.bits_cmp := by
  constructor
  · intro a; cases a with
    | bits b => exact natCompare_totalCmp.refl b
    | bytes bs => exact cmpBytes_totalCmp.refl bs
  · intro a b; cases a <;> cases b <;>
      first
        | exact natCompare_totalCmp.swap _ _
        | exact cmpBytes_totalCmp.swap _ _
        | rfl
  · intro a b c h1 h2; cases a <;> cases b <;> cases c <;>
      simp_all [PhysValue.bits_cmp] <;>
      first
        | exact natCompare_totalCmp.le_trans _ _ _ h1 h2
        | exact cmpBytes_totalCmp.le_trans _ _ _ h1 h2

theorem bits_cmp_eq_iff {a b : PhysValue} :
    a.bits_cmp b = .eq ↔ a = b := by
  cases a <;> cases b <;> simp [PhysValue.bits_cmp, Nat.compare_eq_eq, cmpBytes_eq_iff]

theorem bits_eq_iff {a b : PhysValue} : a.bits_eq b = true ↔ a = b := by
  simp [PhysValue.bits_eq]

theorem bits_cmp_eq_iff_bits_eq {a b : PhysValue} :
    (a.bits_cmp b = .eq) ↔ a.bits_eq b = true := by
  rw [bits_cmp_eq_iff, bits_eq_iff]

/-- Modelled from the spec: the closed set of supported physical column types
(unsigned and signed integers of several widths, 32/64-bit floats, and a
variable-length byte type). -/
inductive PhysType where
  | uint8 | uint16 | uint32 | uint64
  | int8 | int16 | int32 | int64
  | float32 | float64
  | varBytes
deriving DecidableEq, Repr

/-- Modelled from the spec: `FieldData` is a tagged union of homogeneous
column vectors — here the type tag together with the vector of values, each
value given by its bit representation. -/
structure FieldData where
  dtype : PhysType
  values : List PhysValue
deriving DecidableEq, Repr

/-- `proptest::bits::VarBitSet`: a bitmap over row indices. -/
abbrev VarBitSet := List Bool

/-- `VarBitSet::new_bitset(n)`: `n` clear bits. -/
def VarBitSet.new_bitset (n : Nat) : VarBitSet := List.replicate n false

/-- `VarBitSet::set(i)`. -/
def VarBitSet.set (s : VarBitSet) (i : Nat) : VarBitSet := List.set s i true

/-- `VarBitSet::test(i)`. -/
def VarBitSet.test (s : VarBitSet) (i : Nat) : Bool := List.getD s i false

/-- Modelled from the spec: the row-keeping core of `FieldData::filter`: keep
the values whose corresponding bit is set, in original relative order. -/
def listFilterBits {α : Type _} : List Bool → List α → List α
  | b :: bs, v :: vs =>
    if b then v :: listFilterBits bs vs else listFilterBits bs vs
  | _, _ => []

/-- `FieldData::len`. -/
def FieldData.len (d : FieldData) : Nat := d.values.length

/-- `FieldData::is_empty`. -/
def FieldData.is_empty (d : FieldData) : Bool := d.values.isEmpty

/-- Modelled from the spec: `FieldData::slice(start, len)` copies rows
`[start, start+len)`. -/
def FieldData.slice (d : FieldData) (start len : Nat) : FieldData :=
  ⟨d.dtype, (d.values.drop start).take len⟩

/-- Modelled from the spec: `FieldData::truncate`. -/
def FieldData.truncate (d : FieldData) (len : Nat) : FieldData :=
  ⟨d.dtype, d.values.take len⟩

/-- Modelled from the spec: `FieldData::filter(bitset)`. -/
def FieldData.filter (d : FieldData) (set : VarBitSet) : FieldData :=
  ⟨d.dtype, listFilterBits set d.values⟩

/-- Modelled from the spec: `FieldData::extend` appends the rows of a column
of the same variant; the type-mismatch panic is modelled as `none`. -/
def FieldData.extend (d other : FieldData) : Option FieldData :=
  if d.dtype = other.dtype then some ⟨d.dtype, d.values ++ other.values⟩
  else none

/-- Modelled from the spec: `FieldData::bits_eq` — the columns are bit-equal
iff they are the same variant with identical value representations. -/
def FieldData.bits_eq (d other : FieldData) : Bool :=
  d.dtype == other.dtype && d.values == other.values

/-- The permutation-application step of `Cells::sort`:
`data[i] = unsorted[idx[i]]` for every position of the index vector. -/
def FieldData.permute (d : FieldData) (idx : List Nat) : FieldData :=
  ⟨d.dtype, idx.map fun i => d.values.getD i default⟩

/-- `Cells`: a mapping from field name to `FieldData` (a `HashMap` in the
source; an association list here — a map's keys are distinct, which theorems
assume via `List.Nodup` hypotheses where it matters). -/
structure Cells where
  fields : List (String × FieldData)
deriving DecidableEq, Repr

/-- `HashMap::get` on the field map. -/
def lookupField (fields : List (String × FieldData)) (k : String) :
    Option FieldData :=
  match fields with
  | [] => none
  | (k2, d) :: rest => if k2 = k then some d else lookupField rest k

/-- `HashMap` entry update: replace the data stored under an existing key. -/
def updateField (fields : List (String × FieldData)) (k : String)
    (d : FieldData) : List (String × FieldData) :=
  fields.map fun p => if p.1 = k then (p.1, d) else p

/-- `Cells::len`: the row count of an arbitrary field
(`fields.values().next().unwrap()`; the `unwrap` panics when the field map is
empty, so theorems about row counts assume `fields ≠ []`). -/
def Cells.len (c : Cells) : Nat :=
  match c.fields with
  | [] => 0
  | (_, d) :: _ => d.len

/-- `Cells::is_empty` (same `unwrap` caveat as `Cells.len`). -/
def Cells.is_empty (c : Cells) : Bool :=
  match c.fields with
  | [] => true
  | (_, d) :: _ => d.is_empty

/-- The validation loop of `Cells::new`: every field's length must equal the
first length seen (`expect_len`). -/
def checkLens : Option Nat → List (String × FieldData) → Bool
  | _, [] => true
  | none, (_, d) :: rest => checkLens (some d.len) rest
  | some e, (_, d) :: rest => d.len == e && checkLens (some e) rest

/-- `Cells::new`; the `assert_eq!` panic on a length mismatch is modelled as
`none`. -/
def Cells.new (fields : List (String × FieldData)) : Option Cells :=
  if checkLens none fields then some ⟨fields⟩ else none

/-- One step of `Cells::copy_from`'s loop: the `Entry::Vacant` arm inserts the
incoming column; the `Entry::Occupied` arm replaces the column wholly when it
is not longer than the incoming one and otherwise overwrites its first
`len(incoming)` rows; `typed_field_data_cmp!`'s type-mismatch arm is
`unreachable!()`, modelled as `none`. -/
def copyFromStep (fields : List (String × FieldData)) (k : String)
    (data : FieldData) : Option (List (String × FieldData)) :=
  match lookupField fields k with
  | none => some (fields ++ [(k, data)])
  | some mine =>
    if mine.dtype = data.dtype then
      some (updateField fields k
        (if mine.len ≤ data.len then data
         else ⟨mine.dtype, data.values ++ mine.values.drop data.len⟩))
    else none

/-- `Cells::copy_from`. -/
def Cells.copy_from (c cells : Cells) : Option Cells :=
  (cells.fields.foldlM
    (fun acc (p : String × FieldData) => copyFromStep acc p.1 p.2)
    c.fields).map Cells.mk

/-- `Cells::truncate`. -/
def Cells.truncate (c : Cells) (len : Nat) : Cells :=
  ⟨c.fields.map fun p => (p.1, p.2.truncate len)⟩

/-- `Cells::extend`: every field of `self` pulls the column of the same name
out of `other` (`unwrap` panic if missing, extend panic on a type mismatch),
and `other` must end up empty (`assert_eq!(other.fields.len(), 0)`, i.e. the
key sets coincide).  Panics modelled as `none`. -/
def Cells.extend (c other : Cells) : Option Cells := do
  let fs ← c.fields.mapM fun p => do
    let od ← lookupField other.fields p.1
    let d ← p.2.extend od
    pure (p.1, d)
  if other.fields.length = c.fields.length then pure (Cells.mk fs) else none

/-- The values of field `k` (`self.fields[key]`; indexing a missing key is a
panic in the source, modelled by the empty column and only used under
key-presence hypotheses). -/
def fieldValues (c : Cells) (k : String) : List PhysValue :=
  match lookupField c.fields k with
  | some d => d.values
  | none => []

/-- `Cells::index_comparator`: compare two row indices key by key, the first
key whose values differ in bit-order deciding (`Ordering::then` models the
early return). -/
def Cells.index_comparator (c : Cells) (keys : List String) (l r : Nat) :
    Ordering :=
  match keys with
  | [] => .eq
  | k :: ks =>
    (PhysValue.bits_cmp ((fieldValues c k).getD l default)
        ((fieldValues c k).getD r default)).then
      (c.index_comparator ks l r)

/-- `Cells::is_sorted`: no adjacent row pair compares `Greater`. -/
def Cells.is_sorted (c : Cells) (keys : List String) : Bool :=
  (List.range' 1 (c.len - 1)).all fun i =>
    !(c.index_comparator keys (i - 1) i == .gt)

/-- The index permutation of `Cells::sort`: the identity index vector sorted
by the index comparator.  `Vec::sort_by` is a stable comparison sort, modelled
by the stable `List.mergeSort` on the comparator's `≤` (`cmp ≠ Greater`). -/
def Cells.sortIndices (c : Cells) (keys : List String) : List Nat :=
  (List.range c.len).mergeSort fun l r =>
    !(c.index_comparator keys l r == .gt)

/-- `Cells::sort`: apply the sorted index permutation to every column. -/
def Cells.sort (c : Cells) (keys : List String) : Cells :=
  ⟨c.fields.map fun p => (p.1, p.2.permute (c.sortIndices keys))⟩

/-- `Cells::sorted`: sort a clone, leaving the receiver untouched (immutable
values make the clone implicit here). -/
def Cells.sorted (c : Cells) (keys : List String) : Cells := c.sort keys

/-- The `distinct` test shared by the scan loops of `identify_groups`,
`count_distinct` and `dedup`: some key field's value differs (`bits_ne`)
between row `i` and the comparison row `icmp`. -/
def rowDistinct (c : Cells) (keys : List String) (i icmp : Nat) : Bool :=
  keys.any fun k =>
    ((fieldValues c k).getD i default).bits_ne
      ((fieldValues c k).getD icmp default)

/-- The scan loop shared by `identify_groups`, `count_distinct` and `dedup`:
walk the remaining sequence, keeping each element that is `distinct` from the
most recently kept one (`cur` plays the role of the source's `idx[icmp]`). -/
def scanMarksGo {α : Type _} (distinct : α → α → Bool) (cur : α) :
    List α → List α
  | [] => []
  | y :: rest =>
    if distinct y cur then y :: scanMarksGo distinct y rest
    else scanMarksGo distinct cur rest

/-- The full scan: the first element is always kept. -/
def scanMarks {α : Type _} (distinct : α → α → Bool) : List α → List α
  | [] => []
  | x :: rest => x :: scanMarksGo distinct x rest

/-- `Cells::identify_groups`: `None` when empty; otherwise offset `0`, then
every offset whose row differs on some key from the row at the previous
boundary, then `len()`. -/
def Cells.identify_groups (c : Cells) (keys : List String) :
    Option (List Nat) :=
  if c.is_empty then none
  else some (scanMarks (rowDistinct c keys) (List.range c.len) ++ [c.len])

/-- `Cells::count_distinct`: keep only the key fields, sort them, and count
the kept scan boundaries (`count` starts at 1 for row 0 and increments per
`distinct` row, which is exactly the number of kept marks).  The intermediate
`Cells::new` assertion always passes because the key fields are a sub-map of a
uniform-length map. -/
def Cells.count_distinct (c : Cells) (keys : List String) : Nat :=
  if c.len ≤ 1 then c.len
  else
    let key_cells :=
      (Cells.mk (c.fields.filter fun p => keys.contains p.1)).sorted keys
    (scanMarks (rowDistinct key_cells keys) (List.range key_cells.len)).length

/-- `Cells::filter`: filter every column by the same bitmap.  (The
`Cells::new` assertion in the source passes whenever the receiver satisfies
the uniform-length invariant.) -/
def Cells.filter (c : Cells) (set : VarBitSet) : Cells :=
  ⟨c.fields.map fun p => (p.1, p.2.filter set)⟩

/-- `Cells::dedup`: sort the index vector (same computation as `Cells::sort`),
mark `idx[0]` and each `idx[i]` whose row differs from the previous marked
row, and filter with the marked-bit set. -/
def Cells.dedup (c : Cells) (keys : List String) : Cells :=
  if c.is_empty then c
  else
    let idx := c.sortIndices keys
    let marks := scanMarks (rowDistinct c keys) idx
    let preserve :=
      marks.foldl (fun s z => VarBitSet.set s z)
        (VarBitSet.new_bitset idx.length)
    c.filter preserve

/-- `Cells::projection`: all requested fields, or `None` if any is missing. -/
def Cells.projection (c : Cells) (fields : List String) : Option Cells :=
  (fields.mapM fun f =>
    (lookupField c.fields f).map fun data => (f, data)).map Cells.mk

/-- `Cells::add_field`: `false` (here `none`) on a row-count mismatch or an
already-present key; otherwise insert. -/
def Cells.add_field (c : Cells) (key : String) (values : FieldData) :
    Option Cells :=
  if c.len ≠ values.len then none
  else if (lookupField c.fields key).isSome then none
  else some ⟨c.fields ++ [(key, values)]⟩

/-- `StructuredCells`. -/
structure StructuredCells where
  dimensions : List Nat
  cells : Cells
deriving Repr

/-- `StructuredCells::new`; the `assert_eq!` that the dimension product equals
the row count is modelled as `none`. -/
def StructuredCells.new (dimensions : List Nat) (cells : Cells) :
    Option StructuredCells :=
  if dimensions.prod = cells.len then some ⟨dimensions, cells⟩ else none

/-- The coordinates enumerated by `StructuredCells::slice`'s `NextIndex`
odometer: the cartesian product of the per-dimension `(start, stop)` ranges in
row-major order, the last dimension varying fastest; any empty range empties
the whole product. -/
def coordProd : List (Nat × Nat) → List (List Nat)
  | [] => [[]]
  | r :: rs =>
    (List.range' r.1 (r.2 - r.1)).flatMap fun c => (coordProd rs).map (c :: ·)

/-- `NextIndex::compute`: the flat row-major index of a coordinate
(each cursor scaled by the product of the dimensions after it). -/
def flatIndex : List Nat → List Nat → Nat
  | _ :: ds, c :: cs => c * ds.prod + flatIndex ds cs
  | _, _ => 0

/-- `StructuredCells::slice`: set the bit of the flat index of every
coordinate in the cartesian product of the ranges and filter; the resulting
`dimensions` are the original ones, not recomputed from the ranges.  The
`assert_eq!` on the number of ranges is modelled as `none`. -/
def StructuredCells.slice (sc : StructuredCells) (slices : List (Nat × Nat)) :
    Option StructuredCells :=
  if slices.length = sc.dimensions.length then
    let marks := (coordProd slices).map (flatIndex sc.dimensions)
    let v :=
      marks.foldl (fun s z => VarBitSet.set s z)
        (VarBitSet.new_bitset sc.cells.len)
    some ⟨sc.dimensions, sc.cells.filter v⟩
  else none

/-- `CellsView`: a `Cells` with a key subset and a half-open row range
`[start, stop)`. -/
structure CellsView where
  cells : Cells
  keys : List String
  start : Nat
  stop : Nat

/-- `Cells::view`: panics (here `none`) when a key names no field. -/
def Cells.view (c : Cells) (keys : List String) (start stop : Nat) :
    Option CellsView :=
  if keys.all fun k => (lookupField c.fields k).isSome then
    some ⟨c, keys, start, stop⟩
  else none

/-- `impl PartialEq for CellsView`: unequal range lengths are unequal; every
key of the first view must name a field of the second view's cells whose
range slice matches the first's bit for bit under the same variant
(`typed_field_data_cmp!`'s mismatch arm returns `false`); finally both views
must select the same number of keys.  The `unreachable!()` for a key missing
from the first view's own cells (ruled out at construction) is modelled as
`false`. -/
def CellsView.eq (v1 v2 : CellsView) : Bool :=
  if (v1.stop - v1.start) ≠ (v2.stop - v2.start) then false
  else
    (v1.keys.all fun key =>
      match lookupField v1.cells.fields key with
      | none => false
      | some mine =>
        match lookupField v2.cells.fields key with
        | none => false
        | some theirs =>
          mine.dtype == theirs.dtype &&
            ((mine.values.drop v1.start).take (v1.stop - v1.start) ==
              (theirs.values.drop v2.start).take (v2.stop - v2.start)))
    && v1.keys.length == v2.keys.length

/-! ## Supporting lemmas: comparators -/

theorem ordering_then_eq_iff {o p : Ordering} :
    o.then p = .eq ↔ o = .eq ∧ p = .eq := by
  cases o <;> cases p <;> simp [Ordering.then]

theorem ordering_then_ne_gt {o p : Ordering} :
    o.then p ≠ .gt ↔ o = .lt ∨ (o = .eq ∧ p ≠ .gt) := by
  cases o <;> cases p <;> simp [Ordering.then]

theorem TotalCmp.lt_of_le_of_ne_eq {α : Type _} {f : α → α → Ordering}
    (hf : TotalCmp f) {a b : α} (h1 : f a b ≠ .gt) (h2 : f a b ≠ .eq) :
    f a b = .lt := by
  cases h : f a b with
  | lt => rfl
  | eq => exact absurd h h2
  | gt => exact absurd h h1

theorem TotalCmp.comp {α : Type _} {f g : α → α → Ordering}
    (hf : TotalCmp f) (hg : TotalCmp g) :
    TotalCmp (fun a b => (f a b).then (g a b)) := by
  constructor
  · intro a; rw [hf.refl, hg.refl]; rfl
  · intro a b; rw [ordering_swap_then, hf.swap, hg.swap]
  · intro a b c h1 h2
    rw [ordering_then_ne_gt] at h1 h2 ⊢
    have hab : f a b ≠ .gt := by
      rcases h1 with h | ⟨h, _⟩ <;> simp [h]
    have hbc : f b c ≠ .gt := by
      rcases h2 with h | ⟨h, _⟩ <;> simp [h]
    have hac : f a c ≠ .gt := hf.le_trans a b c hab hbc
    rcases h1 with h1f | ⟨h1f, h1g⟩
    · -- `f a b = .lt`: show `f a c = .lt`
      left
      apply hf.lt_of_le_of_ne_eq hac
      intro hace
      have hca : f c a = .eq := by rw [← hf.swap a c, hace]; rfl
      have hcb : f c b ≠ .gt :=
        hf.le_trans c a b (by simp [hca]) hab
      have hbceq : f b c = .eq := hf.eq_of_le_of_ge hbc hcb
      have hba : f b a ≠ .gt :=
        hf.le_trans b c a (by simp [hbceq]) (by simp [hca])
      have : f b a = .gt := by rw [← hf.swap a b, h1f]; rfl
      exact absurd this hba
    · rcases h2 with h2f | ⟨h2f, h2g⟩
      · -- `f a b = .eq`, `f b c = .lt`: show `f a c = .lt`
        left
        apply hf.lt_of_le_of_ne_eq hac
        intro hace
        have hba : f b a ≠ .gt := by rw [← hf.swap, h1f]; simp [Ordering.swap]
        have hbc2 : f b c ≠ .gt := hf.le_trans b a c hba hac
        have hca : f c a ≠ .gt := by rw [← hf.swap, hace]; simp [Ordering.swap]
        have hcb : f c b ≠ .gt := hf.le_trans c a b hca (by simp [h1f])
        have : f b c = .eq := hf.eq_of_le_of_ge hbc2 hcb
        rw [this] at h2f; cases h2f
      · -- both `.eq` on `f`: use `g`'s transitivity
        right
        constructor
        · apply hf.eq_of_le_of_ge hac
          have hcb : f c b ≠ .gt := by rw [← hf.swap, h2f]; simp [Ordering.swap]
          have hba : f b a ≠ .gt := by rw [← hf.swap, h1f]; simp [Ordering.swap]
          exact hf.le_trans c b a hcb hba
        · exact hg.le_trans a b c h1g h2g

theorem TotalCmp.precomp {α β : Type _} {f : α → α → Ordering}
    (hf : TotalCmp f) (h : β → α) :
    TotalCmp (fun a b => f (h a) (h b)) := by
  constructor
  · intro a; exact hf.refl (h a)
  · intro a b; exact hf.swap (h a) (h b)
  · intro a b c; exact hf.le_trans (h a) (h b) (h c)

theorem index_comparator_totalCmp (c : Cells) (keys : List String) :
    TotalCmp (c.index_comparator keys) := by
  induction keys with
  | nil =>
    constructor
    · intro a; rfl
    · intro a b; rfl
    · intro a b c h1 h2; exact h1
  | cons k ks ih =>
    have hk : TotalCmp fun l r : Nat =>
        PhysValue.bits_cmp ((fieldValues c k).getD l default)
          ((fieldValues c k).getD r default) :=
      bits_cmp_totalCmp.precomp fun i => (fieldValues c k).getD i default
    exact hk.comp ih

/-- The per-row scan test agrees with the comparator: two rows compare `.eq`
iff no key field distinguishes them. -/
theorem index_comparator_eq_iff {c : Cells} {keys : List String} {l r : Nat} :
    c.index_comparator keys l r = .eq ↔ rowDistinct c keys l r = false := by
  induction keys with
  | nil => simp [Cells.index_comparator, rowDistinct]
  | cons k ks ih =>
    simp only [Cells.index_comparator, rowDistinct, List.any_cons,
      Bool.or_eq_false_iff, ordering_then_eq_iff]
    rw [← rowDistinct, ← ih, bits_cmp_eq_iff]
    simp [PhysValue.bits_ne, PhysValue.bits_eq]

theorem rowDistinct_self (c : Cells) (keys : List String) (i : Nat) :
    rowDistinct c keys i i = false := by
  rw [← index_comparator_eq_iff]
  exact (index_comparator_totalCmp c keys).refl i

theorem bits_ne_comm (a b : PhysValue) : a.bits_ne b = b.bits_ne a := by
  simp only [PhysValue.bits_ne, PhysValue.bits_eq]
  by_cases h : a = b
  · subst h; rfl
  · rw [beq_eq_false_iff_ne.mpr h, beq_eq_false_iff_ne.mpr (Ne.symm h)]

theorem rowDistinct_symm (c : Cells) (keys : List String) (i j : Nat) :
    rowDistinct c keys i j = rowDistinct c keys j i := by
  unfold rowDistinct
  induction keys with
  | nil => rfl
  | cons k ks ih =>
    simp only [List.any_cons]
    rw [bits_ne_comm, ih]

theorem rowDistinct_trans {c : Cells} {keys : List String} {i j l : Nat}
    (h1 : rowDistinct c keys i j = false)
    (h2 : rowDistinct c keys j l = false) :
    rowDistinct c keys i l = false := by
  rw [← index_comparator_eq_iff] at h1 h2 ⊢
  have tc := index_comparator_totalCmp c keys
  apply tc.eq_of_le_of_ge
  · exact tc.le_trans i j l (by simp [h1]) (by simp [h2])
  · have h1s : c.index_comparator keys j i = .eq := by
      rw [← tc.swap, h1]; rfl
    have h2s : c.index_comparator keys l j = .eq := by
      rw [← tc.swap, h2]; rfl
    exact tc.le_trans l j i (by simp [h2s]) (by simp [h1s])

/-- The boolean `≤` used to model `Vec::sort_by`'s ordering. -/
def rowLE (c : Cells) (keys : List String) (l r : Nat) : Bool :=
  !(c.index_comparator keys l r == .gt)

theorem rowLE_iff {c : Cells} {keys : List String} {l r : Nat} :
    rowLE c keys l r = true ↔ c.index_comparator keys l r ≠ .gt := by
  cases h : c.index_comparator keys l r <;> simp only [rowLE, h] <;> decide

theorem rowLE_trans (c : Cells) (keys : List String) :
    ∀ a b d : Nat, rowLE c keys a b → rowLE c keys b d → rowLE c keys a d := by
  intro a b d h1 h2
  rw [rowLE_iff] at h1 h2 ⊢
  exact (index_comparator_totalCmp c keys).le_trans a b d h1 h2

theorem rowLE_total (c : Cells) (keys : List String) :
    ∀ a b : Nat, rowLE c keys a b || rowLE c keys b a := by
  intro a b
  rcases (index_comparator_totalCmp c keys).le_total a b with h | h
  · simp [rowLE_iff.mpr h]
  · simp [rowLE_iff.mpr h]

theorem rowLE_of_eq {c : Cells} {keys : List String} {l r : Nat}
    (h : c.index_comparator keys l r = .eq) : rowLE c keys l r = true := by
  rw [rowLE_iff, h]; simp

theorem eq_of_rowLE_both {c : Cells} {keys : List String} {l r : Nat}
    (h1 : rowLE c keys l r = true) (h2 : rowLE c keys r l = true) :
    c.index_comparator keys l r = .eq := by
  rw [rowLE_iff] at h1 h2
  exact (index_comparator_totalCmp c keys).eq_of_le_of_ge h1 h2

/-! ## Supporting lemmas: the shared scan -/

theorem scanMarksGo_sublist {α : Type _} (d : α → α → Bool) (cur : α)
    (l : List α) : scanMarksGo d cur l <+ l := by
  induction l generalizing cur with
  | nil => simp [scanMarksGo]
  | cons y rest ih =>
    simp only [scanMarksGo]
    by_cases h : d y cur = true
    · simp only [h, if_true]
      exact (ih y).cons₂ y
    · simp only [Bool.not_eq_true] at h
      simp only [h]
      exact (ih cur).cons y

theorem scanMarks_sublist {α : Type _} (d : α → α → Bool) (l : List α) :
    scanMarks d l <+ l := by
  cases l with
  | nil => simp [scanMarks]
  | cons x rest => exact (scanMarksGo_sublist d x rest).cons₂ x

/-- Membership in the scan output over a sorted duplicate-free list: an
element is kept iff no element before it in the list is indistinct from it. -/
theorem mem_scanMarksGo {α : Type _} {d le : α → α → Bool}
    (hd_symm : ∀ a b, d a b = d b a)
    (hd_trans : ∀ a b e, d a b = false → d b e = false → d a e = false)
    (hkernel : ∀ a b, le a b = true → le b a = true → d a b = false)
    (hE_le : ∀ a b, d a b = false → le a b = true)
    (hle_trans : ∀ a b e, le a b = true → le b e = true → le a e = true) :
    ∀ (l : List α) (cur z : α),
      (cur :: l).Pairwise (fun a b => le a b = true) →
      (cur :: l).Nodup →
      (z ∈ scanMarksGo d cur l ↔
        z ∈ l ∧ d z cur = true ∧ ∀ w, [w, z] <+ l → d z w = true) := by
  intro l
  induction l with
  | nil => intro cur z _ _; simp [scanMarksGo]
  | cons y rest ih =>
    intro cur z hpair hnd
    have hsub : (cur :: rest) <+ (cur :: y :: rest) :=
      List.Sublist.cons₂ cur (List.sublist_cons_self y rest)
    have hpair_cr : (cur :: rest).Pairwise (fun a b => le a b = true) :=
      hpair.sublist hsub
    have hnd_cr : (cur :: rest).Nodup := hnd.sublist hsub
    have hpair_yr : (y :: rest).Pairwise (fun a b => le a b = true) :=
      hpair.sublist (List.sublist_cons_self cur (y :: rest))
    have hnd_yr : (y :: rest).Nodup :=
      hnd.sublist (List.sublist_cons_self cur (y :: rest))
    have hy_not_mem : y ∉ rest := (List.nodup_cons.mp hnd_yr).1
    simp only [scanMarksGo]
    by_cases hyd : d y cur = true
    · simp only [hyd, if_true]
      have goih := ih y z hpair_yr hnd_yr
      constructor
      · intro hz
        rcases List.mem_cons.mp hz with hzy | hzgo
        · subst hzy
          refine ⟨List.mem_cons_self z rest, hyd, ?_⟩
          intro w hw
          cases hw with
          | cons _ h => exact absurd (h.subset (by simp)) hy_not_mem
          | cons₂ _ h => exact absurd (h.subset (by simp)) hy_not_mem
        · have hparts := goih.mp hzgo
          rcases hparts with ⟨hzr, hzy, hcond⟩
          refine ⟨List.mem_cons_of_mem y hzr, ?_, ?_⟩
          · -- `d z cur = true`: otherwise `z` is indistinct from `cur`,
            -- forcing `cur` and `y` indistinct by sortedness.
            by_contra hzc
            simp only [Bool.not_eq_true] at hzc
            have hlecy : le cur y = true :=
              List.rel_of_pairwise_cons hpair (List.mem_cons_self y rest)
            have hleyz : le y z = true :=
              List.rel_of_pairwise_cons hpair_yr hzr
            have hlezcur : le z cur = true := hE_le z cur hzc
            have hleycur : le y cur = true := hle_trans y z cur hleyz hlezcur
            have hcy : d cur y = false := hkernel cur y hlecy hleycur
            rw [hd_symm] at hcy
            rw [hcy] at hyd
            cases hyd
          · intro w hw
            cases hw with
            | cons _ h => exact hcond w h
            | cons₂ _ h => exact hzy
      · rintro ⟨hzm, hzc, hcond⟩
        rcases List.mem_cons.mp hzm with hzy | hzr
        · subst hzy; exact List.mem_cons_self z _
        · apply List.mem_cons_of_mem
          apply goih.mpr
          refine ⟨hzr, ?_, ?_⟩
          · exact hcond y (List.Sublist.cons₂ y (List.singleton_sublist.mpr hzr))
          · intro w hw
            exact hcond w (hw.cons y)
    · simp only [Bool.not_eq_true] at hyd
      simp only [hyd, Bool.false_eq_true, if_false]
      have goih := ih cur z hpair_cr hnd_cr
      rw [goih]
      constructor
      · rintro ⟨hzr, hzc, hcond⟩
        refine ⟨List.mem_cons_of_mem y hzr, hzc, ?_⟩
        intro w hw
        cases hw with
        | cons _ h => exact hcond w h
        | cons₂ _ h =>
          -- `w = y`; if `z` were indistinct from `y`, transitivity through
          -- `d y cur = false` would contradict `d z cur = true`.
          by_contra hzy
          simp only [Bool.not_eq_true] at hzy
          have hzcur : d z cur = false := hd_trans z y cur hzy hyd
          rw [hzcur] at hzc
          cases hzc
      · rintro ⟨hzm, hzc, hcond⟩
        rcases List.mem_cons.mp hzm with hzy | hzr
        · exfalso
          subst hzy
          rw [hyd] at hzc
          cases hzc
        · refine ⟨hzr, hzc, ?_⟩
          intro w hw
          exact hcond w (hw.cons y)

/-- Membership in the full scan over a sorted duplicate-free list. -/
theorem mem_scanMarks {α : Type _} {d le : α → α → Bool}
    (hd_symm : ∀ a b, d a b = d b a)
    (hd_trans : ∀ a b e, d a b = false → d b e = false → d a e = false)
    (hkernel : ∀ a b, le a b = true → le b a = true → d a b = false)
    (hE_le : ∀ a b, d a b = false → le a b = true)
    (hle_trans : ∀ a b e, le a b = true → le b e = true → le a e = true)
    (l : List α) (z : α)
    (hpair : l.Pairwise (fun a b => le a b = true))
    (hnd : l.Nodup) :
    z ∈ scanMarks d l ↔ z ∈ l ∧ ∀ w, [w, z] <+ l → d z w = true := by
  cases l with
  | nil => simp [scanMarks]
  | cons x rest =>
    have hx_not_mem : x ∉ rest := (List.nodup_cons.mp hnd).1
    simp only [scanMarks, List.mem_cons]
    constructor
    · intro hz
      rcases hz with hzx | hzgo
      · subst hzx
        refine ⟨Or.inl rfl, ?_⟩
        intro w hw
        cases hw with
        | cons _ h => exact absurd (h.subset (by simp)) hx_not_mem
        | cons₂ _ h => exact absurd (h.subset (by simp)) hx_not_mem
      · have hparts :=
          (mem_scanMarksGo hd_symm hd_trans hkernel hE_le hle_trans
            rest x z hpair hnd).mp hzgo
        rcases hparts with ⟨hzr, hzx, hcond⟩
        refine ⟨Or.inr hzr, ?_⟩
        intro w hw
        cases hw with
        | cons _ h => exact hcond w h
        | cons₂ _ h => exact hzx
    · rintro ⟨hzm, hcond⟩
      rcases hzm with hzx | hzr
      · exact Or.inl hzx
      · refine Or.inr ((mem_scanMarksGo hd_symm hd_trans hkernel hE_le
          hle_trans rest x z hpair hnd).mpr ⟨hzr, ?_, ?_⟩)
        · exact hcond x (List.Sublist.cons₂ x (List.singleton_sublist.mpr hzr))
        · intro w hw
          exact hcond w (hw.cons x)

/-- Two elements cannot appear in both orders in a duplicate-free list. -/
theorem pair_sublist_antisymm {α : Type _} :
    ∀ {l : List α}, l.Nodup → ∀ {a b : α},
      [a, b] <+ l → [b, a] <+ l → a = b := by
  intro l
  induction l with
  | nil => intro _ a b h1 _; cases h1
  | cons x t ih =>
    intro hnd a b h1 h2
    have hx_not_mem : x ∉ t := (List.nodup_cons.mp hnd).1
    have hnd_t : t.Nodup := (List.nodup_cons.mp hnd).2
    cases h1 with
    | cons _ h1t =>
      cases h2 with
      | cons _ h2t => exact ih hnd_t h1t h2t
      | cons₂ _ h2t =>
        -- here `b = x` while `[a, b] <+ t` puts `x` in `t`
        exact absurd (h1t.subset (by simp)) hx_not_mem
    | cons₂ _ h1t =>
      cases h2 with
      | cons _ h2t =>
        -- here `a = x` while `[b, a] <+ t` puts `x` in `t`
        exact absurd (h2t.subset (by simp)) hx_not_mem
      | cons₂ _ h2t => rfl

/-- A strictly ordered pair below `n` is a sublist of `range n`. -/
theorem pair_sublist_range {w z n : Nat} (hwz : w < z) (hzn : z < n) :
    [w, z] <+ List.range n := by
  have key1 : List.range' 0 w ++ List.range' w (n - w) = List.range' 0 n := by
    have h := List.range'_append_1 0 w (n - w)
    simp only [Nat.zero_add] at h
    rw [h]; congr 1; omega
  have key2 : List.range' w (z - w) ++ List.range' z (n - z) =
      List.range' w (n - w) := by
    have h := List.range'_append_1 w (z - w) (n - z)
    rw [show w + (z - w) = z by omega] at h
    rw [h]; congr 1; omega
  rw [List.range_eq_range', ← key1, ← key2]
  have hw : [w] <+ List.range' w (z - w) := by
    rw [show z - w = (z - w - 1) + 1 by omega, List.range'_succ]
    simp
  have hz : [z] <+ List.range' z (n - z) := by
    rw [show n - z = (n - z - 1) + 1 by omega, List.range'_succ]
    simp
  have hwz2 : [w, z] <+ List.range' w (z - w) ++ List.range' z (n - z) :=
    List.Sublist.append hw hz
  exact hwz2.trans (List.sublist_append_right _ _)

/-! ## Supporting lemmas: bitmaps and filtering -/

theorem length_foldl_set (ms : List Nat) :
    ∀ bs : VarBitSet,
      (ms.foldl (fun s z => VarBitSet.set s z) bs).length = bs.length := by
  induction ms with
  | nil => intro bs; rfl
  | cons m ms ih =>
    intro bs
    rw [List.foldl_cons, ih]
    simp [VarBitSet.set]

theorem getD_set_bit (bs : VarBitSet) (z i : Nat) :
    (VarBitSet.set bs z).getD i false =
      (bs.getD i false || (decide (z = i) && decide (z < bs.length))) := by
  simp only [VarBitSet.set, List.getD_eq_getElem?_getD]
  by_cases hzi : z = i
  · subst hzi
    by_cases hz : z < bs.length
    · rw [List.getElem?_set_self hz]
      simp [hz]
    · rw [List.set_eq_of_length_le (by omega)]
      simp [hz]
  · rw [List.getElem?_set_ne hzi]
    simp [hzi]

theorem getD_foldl_set (ms : List Nat) :
    ∀ (bs : VarBitSet) (i : Nat),
      (ms.foldl (fun s z => VarBitSet.set s z) bs).getD i false =
        (bs.getD i false || (decide (i ∈ ms) && decide (i < bs.length))) := by
  induction ms with
  | nil => intro bs i; simp
  | cons m ms ih =>
    intro bs i
    rw [List.foldl_cons, ih, getD_set_bit]
    simp only [VarBitSet.set, List.length_set, List.mem_cons]
    by_cases hmi : m = i
    · subst hmi
      by_cases hlen : m < bs.length <;> simp [hlen]
    · have h1 : decide (m = i) = false := by simp [hmi]
      have h2 : decide (i = m ∨ i ∈ ms) = decide (i ∈ ms) := by
        simp [Ne.symm hmi]
      rw [h1, h2]
      simp

/-- The bit-filter is index selection: with a bitmap and column of equal
length, filtering keeps exactly the values at set positions, in order. -/
theorem listFilterBits_eq {α : Type _} (dflt : α) :
    ∀ (bs : List Bool) (vs : List α), bs.length = vs.length →
      listFilterBits bs vs =
        ((List.range vs.length).filter fun i => bs.getD i false).map
          fun i => vs.getD i dflt := by
  intro bs
  induction bs with
  | nil =>
    intro vs h
    have : vs = [] := List.length_eq_zero.mp h.symm
    subst this
    rfl
  | cons b bs ih =>
    intro vs h
    cases vs with
    | nil => simp at h
    | cons v vs =>
      simp only [List.length_cons] at h
      have h' : bs.length = vs.length := by omega
      simp only [listFilterBits, List.length_cons, List.range_succ_eq_map,
        List.filter_cons, List.filter_map]
      have hmaps : ∀ X : List Nat,
          List.map (fun i => (v :: vs).getD i dflt) (List.map Nat.succ X) =
            List.map (fun i => vs.getD i dflt) X := by
        intro X
        rw [List.map_map]
        rfl
      have hgd0 : (b :: bs).getD 0 false = b := rfl
      rw [hgd0]
      cases b
      · simp only [Bool.false_eq_true, if_false]
        rw [hmaps]
        exact ih vs h'
      · simp only [if_true, List.map_cons]
        rw [hmaps, ih vs h']
        rfl

theorem map_getD_range {α : Type _} (vs : List α) (dflt : α) :
    ((List.range vs.length).map fun i => vs.getD i dflt) = vs := by
  apply List.ext_getElem
  · simp
  · intro i h1 h2
    simp only [List.getElem_map, List.getElem_range,
      List.getD_eq_getElem?_getD, List.getElem?_eq_getElem h2]
    rfl

/-! ## Supporting lemmas: lookups and the sort permutation -/

theorem lookupField_map (g : FieldData → FieldData)
    (fields : List (String × FieldData)) (k : String) :
    lookupField (fields.map fun p => (p.1, g p.2)) k =
      (lookupField fields k).map g := by
  induction fields with
  | nil => rfl
  | cons p rest ih =>
    obtain ⟨k2, d⟩ := p
    simp only [List.map_cons, lookupField]
    by_cases h : k2 = k
    · simp [h]
    · simp [h, ih]

theorem sortIndices_eq_mergeSort (c : Cells) (keys : List String) :
    c.sortIndices keys = (List.range c.len).mergeSort (rowLE c keys) := rfl

theorem sortIndices_length (c : Cells) (keys : List String) :
    (c.sortIndices keys).length = c.len := by
  rw [sortIndices_eq_mergeSort, List.length_mergeSort, List.length_range]

theorem sortIndices_perm (c : Cells) (keys : List String) :
    (c.sortIndices keys).Perm (List.range c.len) :=
  List.mergeSort_perm (List.range c.len) (rowLE c keys)

theorem sortIndices_nodup (c : Cells) (keys : List String) :
    (c.sortIndices keys).Nodup :=
  ((sortIndices_perm c keys).nodup_iff).mpr (List.nodup_range c.len)

theorem sortIndices_mem {c : Cells} {keys : List String} {i : Nat} :
    i ∈ c.sortIndices keys ↔ i < c.len := by
  rw [sortIndices_eq_mergeSort, List.mem_mergeSort, List.mem_range]

theorem sortIndices_pairwise (c : Cells) (keys : List String) :
    (c.sortIndices keys).Pairwise fun a b => rowLE c keys a b = true := by
  rw [sortIndices_eq_mergeSort]
  exact List.sorted_mergeSort (rowLE_trans c keys) (rowLE_total c keys)
    (List.range c.len)

theorem pair_sublist_sortIndices {c : Cells} {keys : List String} {i j : Nat}
    (hle : rowLE c keys i j = true) (hij : i < j) (hj : j < c.len) :
    [i, j] <+ c.sortIndices keys := by
  rw [sortIndices_eq_mergeSort]
  exact List.pair_sublist_mergeSort (rowLE_trans c keys) (rowLE_total c keys)
    hle (pair_sublist_range hij hj)

theorem sort_len (c : Cells) (keys : List String) :
    (c.sort keys).len = c.len := by
  unfold Cells.sort Cells.len
  cases h : c.fields with
  | nil => simp
  | cons p rest =>
    obtain ⟨k2, d⟩ := p
    simp only [List.map_cons]
    show (d.permute (c.sortIndices keys)).len = _
    simp only [FieldData.permute, FieldData.len, List.length_map,
      sortIndices_length]
    unfold Cells.len
    rw [h]
    rfl

theorem fieldValues_sort_getD (c : Cells) (keys : List String) (k : String)
    {a : Nat} (ha : a < (c.sortIndices keys).length) :
    (fieldValues (c.sort keys) k).getD a default =
      (fieldValues c k).getD ((c.sortIndices keys).getD a 0) default := by
  unfold fieldValues
  show (match lookupField (c.fields.map fun p : String × FieldData =>
      (p.1, p.2.permute (c.sortIndices keys))) k with
    | some d => d.values
    | none => ([] : List PhysValue)).getD a default = _
  rw [lookupField_map (fun v => FieldData.permute v (c.sortIndices keys)) c.fields k]
  cases h : lookupField c.fields k with
  | none => simp
  | some d =>
    show ((c.sortIndices keys).map fun i => d.values.getD i default).getD
        a default = d.values.getD ((c.sortIndices keys).getD a 0) default
    rw [List.getD_eq_getElem?_getD, List.getElem?_map,
      List.getElem?_eq_getElem ha]
    rw [List.getD_eq_getElem?_getD (c.sortIndices keys) a 0,
      List.getElem?_eq_getElem ha]
    rfl

theorem index_comparator_sort (c : Cells) (keys keys2 : List String)
    {a b : Nat} (ha : a < (c.sortIndices keys).length)
    (hb : b < (c.sortIndices keys).length) :
    (c.sort keys).index_comparator keys2 a b =
      c.index_comparator keys2 ((c.sortIndices keys).getD a 0)
        ((c.sortIndices keys).getD b 0) := by
  induction keys2 with
  | nil => rfl
  | cons k ks ih =>
    simp only [Cells.index_comparator]
    rw [ih, fieldValues_sort_getD c keys k ha, fieldValues_sort_getD c keys k hb]

/-! ## Specification-side definitions -/

/-- Spec: all supplied fields share one row count. -/
def sharedRowCount (fields : List (String × FieldData)) : Prop :=
  ∃ n, ∀ p ∈ fields, (p.2 : FieldData).len = n

/-- Spec: the uniform-row-count invariant, relative to the collection's own
row count. -/
def Cells.uniform (c : Cells) : Prop :=
  ∀ p ∈ c.fields, (p.2 : FieldData).len = c.len

/-- Spec: row `i` is the first occurrence of its key-combination in original
row order (no earlier row is bit-equal to it on every key field). -/
def firstOcc (c : Cells) (keys : List String) (i : Nat) : Bool :=
  (List.range i).all fun j => rowDistinct c keys i j

/-- Spec: the reference result of `dedup` — keep, in original row order,
exactly the rows that are the first occurrence of their key-combination. -/
def refDedup (c : Cells) (keys : List String) : Cells :=
  ⟨c.fields.map fun p =>
    (p.1, ⟨p.2.dtype,
      ((List.range c.len).filter fun i => firstOcc c keys i).map
        fun i => p.2.values.getD i default⟩)⟩

/-! ## Claim theorems: sorting -/

theorem getD_eq_get {α : Type _} (l : List α) (d : α) {i : Nat}
    (h : i < l.length) : l.getD i d = l.get ⟨i, h⟩ := by
  rw [List.getD_eq_getElem?_getD, List.getElem?_eq_getElem h]
  rfl

/-- **C7.** For every `Cells` and key list, `sorted` produces a collection
that `is_sorted` accepts: every adjacent row pair of the sorted copy is
non-decreasing under the composite key-by-key bit-order comparator.  (The
receiver itself is untouched: `sorted` sorts a clone, which the purely
functional embedding renders by `sorted` being a function of the receiver.) -/
theorem C7_sorted_is_sorted (c : Cells) (keys : List String) :
    (c.sorted keys).is_sorted keys = true := by
  unfold Cells.sorted Cells.is_sorted
  rw [List.all_eq_true]
  intro i hi
  rw [sort_len, List.mem_range'] at hi
  obtain ⟨t, ht, hit⟩ := hi
  have hi1 : 1 ≤ i := by omega
  have hin : i < c.len := by omega
  have ha : i - 1 < (c.sortIndices keys).length := by
    rw [sortIndices_length]; omega
  have hb : i < (c.sortIndices keys).length := by
    rw [sortIndices_length]; omega
  show rowLE (c.sort keys) keys (i - 1) i = true
  rw [rowLE_iff, index_comparator_sort c keys keys ha hb]
  have hchain := (sortIndices_pairwise c keys).chain'
  rw [List.chain'_iff_get] at hchain
  have hb' : i - 1 + 1 < (c.sortIndices keys).length := by
    rw [sortIndices_length]; omega
  have hstep : rowLE c keys ((c.sortIndices keys).getD (i - 1) 0)
      ((c.sortIndices keys).getD (i - 1 + 1) 0) = true := by
    rw [getD_eq_get _ 0 ha, getD_eq_get _ 0 hb']
    exact hchain (i - 1) (by rw [sortIndices_length]; omega)
  have hidx : i - 1 + 1 = i := by omega
  rw [hidx] at hstep
  exact rowLE_iff.mp hstep

/-- **C9** (implicit).  `Cells::sort` applies a stable permutation: the index
vector it sorts is a permutation of `0..len`, and any two row indices whose
rows compare equal on every key field appear in it in their original relative
order — which is what lets `dedup`'s scan keep the smallest original index of
each key-group. -/
theorem C9_sort_stable (c : Cells) (keys : List String) :
    (c.sortIndices keys).Perm (List.range c.len) ∧
      ∀ i j : Nat, i < j → j < c.len →
        c.index_comparator keys i j = .eq →
        [i, j] <+ c.sortIndices keys := by
  refine ⟨sortIndices_perm c keys, ?_⟩
  intro i j hij hj heq
  exact pair_sublist_sortIndices (rowLE_of_eq heq) hij hj

/-- A two-row collection with a repeated key value, used to witness the
stability statement at a concrete input. -/
def tieCells : Cells :=
  ⟨[("a", ⟨PhysType.uint8, [PhysValue.bits 5, PhysValue.bits 5]⟩)]⟩

theorem C9_sort_stable_witness :
    (tieCells.sortIndices ["a"]).Perm (List.range tieCells.len) ∧
      [0, 1] <+ tieCells.sortIndices ["a"] :=
  ⟨(C9_sort_stable tieCells ["a"]).1,
    (C9_sort_stable tieCells ["a"]).2 0 1 (by decide) (by decide) (by rfl)⟩

/-! ## Claim theorem: constructors (C8) -/

theorem checkLens_some_iff :
    ∀ (fields : List (String × FieldData)) (e : Nat),
      checkLens (some e) fields = true ↔
        ∀ p ∈ fields, (p.2 : FieldData).len = e := by
  intro fields
  induction fields with
  | nil => intro e; simp [checkLens]
  | cons p rest ih =>
    intro e
    obtain ⟨k, d⟩ := p
    simp [checkLens, ih, List.forall_mem_cons]

theorem checkLens_none_iff (fields : List (String × FieldData)) :
    checkLens none fields = true ↔ sharedRowCount fields := by
  cases fields with
  | nil =>
    constructor
    · intro _; exact ⟨0, by simp⟩
    · intro _; rfl
  | cons p rest =>
    obtain ⟨k, d⟩ := p
    show checkLens (some d.len) rest = true ↔ _
    rw [checkLens_some_iff]
    unfold sharedRowCount
    constructor
    · intro h
      refine ⟨d.len, ?_⟩
      rw [List.forall_mem_cons]
      exact ⟨rfl, h⟩
    · rintro ⟨n, hn⟩
      rw [List.forall_mem_cons] at hn
      intro p hp
      rw [hn.2 p hp, ← hn.1]

/-- **C8.** `Cells::new` aborts exactly when the supplied fields do not all
share one row count (so it succeeds on an empty or singleton field map), and
`StructuredCells::new` aborts exactly when the product of the dimension
extents differs from the wrapped row count; on success each stores exactly
what was supplied. -/
theorem C8_constructors :
    (∀ fields : List (String × FieldData),
      (Cells.new fields = none ↔ ¬ sharedRowCount fields) ∧
      ∀ c, Cells.new fields = some c → c.fields = fields) ∧
    (∀ (dims : List Nat) (cells : Cells),
      (StructuredCells.new dims cells = none ↔ dims.prod ≠ cells.len) ∧
      ∀ sc, StructuredCells.new dims cells = some sc →
        sc.dimensions = dims ∧ sc.cells = cells) := by
  constructor
  · intro fields
    constructor
    · unfold Cells.new
      by_cases h : checkLens none fields = true
      · simp [h, (checkLens_none_iff fields).mp h]
      · have hs : ¬ sharedRowCount fields := fun hsh =>
          h ((checkLens_none_iff fields).mpr hsh)
        simp [h, hs]
    · intro c hc
      unfold Cells.new at hc
      by_cases h : checkLens none fields = true
      · simp only [h, if_true] at hc
        cases hc
        rfl
      · simp [h] at hc
  · intro dims cells
    constructor
    · unfold StructuredCells.new
      by_cases h : dims.prod = cells.len <;> simp [h]
    · intro sc hsc
      unfold StructuredCells.new at hsc
      by_cases h : dims.prod = cells.len
      · simp only [h, if_true] at hsc
        cases hsc
        exact ⟨rfl, rfl⟩
      · simp [h] at hsc

theorem C8_constructors_witness :
    (Cells.mk []).fields = ([] : List (String × FieldData)) ∧
      (StructuredCells.mk [2] tieCells).dimensions = [2] ∧
      (StructuredCells.mk [2] tieCells).cells = tieCells :=
  ⟨(C8_constructors.1 []).2 (Cells.mk []) (by rfl),
    (C8_constructors.2 [2] tieCells).2 (StructuredCells.mk [2] tieCells)
      (by rfl)⟩

/-! ## Claim theorem: invariant preservation (C10) -/

theorem uniform_of_all_eq (fields : List (String × FieldData)) (m : Nat)
    (h : ∀ p ∈ fields, (p.2 : FieldData).len = m) :
    (Cells.mk fields).uniform := by
  intro p hp
  cases fields with
  | nil => cases hp
  | cons q rest =>
    obtain ⟨k, d⟩ := q
    have hq := h (k, d) (List.mem_cons_self _ _)
    have hp' := h p hp
    show p.2.len = (Cells.mk ((k, d) :: rest)).len
    have hlen : (Cells.mk ((k, d) :: rest)).len = d.len := rfl
    rw [hlen, hp', hq]

/-- The filtered length depends only on the input length. -/
theorem length_listFilterBits_congr {α β : Type _} (s : List Bool) :
    ∀ (vs : List α) (ws : List β), vs.length = ws.length →
      (listFilterBits s vs).length = (listFilterBits s ws).length := by
  induction s with
  | nil => intro vs ws _; cases vs <;> cases ws <;> rfl
  | cons b bs ih =>
    intro vs ws h
    cases vs with
    | nil => cases ws with
      | nil => rfl
      | cons w ws => simp at h
    | cons v vs =>
      cases ws with
      | nil => simp at h
      | cons w ws =>
        simp only [List.length_cons] at h
        simp only [listFilterBits]
        cases b
        · simp only [Bool.false_eq_true, if_false]
          exact ih vs ws (by omega)
        · simp only [if_true, List.length_cons]
          rw [ih vs ws (by omega)]

theorem filter_uniform (c : Cells) (hc : c.uniform) (s : VarBitSet) :
    (c.filter s).uniform := by
  apply uniform_of_all_eq _
    ((listFilterBits s (List.replicate c.len (default : PhysValue))).length)
  intro p hp
  rw [List.mem_map] at hp
  obtain ⟨q, hq, hpq⟩ := hp
  subst hpq
  show (listFilterBits s q.2.values).length = _
  apply length_listFilterBits_congr
  rw [List.length_replicate]
  exact hc q hq

theorem lookupField_mem {fields : List (String × FieldData)} {k : String}
    {d : FieldData} (h : lookupField fields k = some d) : (k, d) ∈ fields := by
  induction fields with
  | nil => cases h
  | cons p rest ih =>
    obtain ⟨k2, d2⟩ := p
    unfold lookupField at h
    by_cases hk : k2 = k
    · simp only [hk, if_true] at h
      cases h
      subst hk
      exact List.mem_cons_self _ _
    · simp only [hk, if_false] at h
      exact List.mem_cons_of_mem _ (ih h)

/-- `mapM` over `Option` succeeds exactly pointwise. -/
theorem mapM_option_forall₂ {α β : Type _} {f : α → Option β} :
    ∀ {l : List α} {ys : List β}, l.mapM f = some ys →
      List.Forall₂ (fun x y => f x = some y) l ys := by
  intro l
  induction l with
  | nil =>
    intro ys h
    simp only [List.mapM_nil] at h
    cases h
    exact List.Forall₂.nil
  | cons x rest ih =>
    intro ys h
    rw [List.mapM_cons] at h
    cases hfx : f x with
    | none => rw [hfx] at h; cases h
    | some y =>
      rw [hfx] at h
      cases hrest : rest.mapM f with
      | none => rw [hrest] at h; cases h
      | some zs =>
        rw [hrest] at h
        simp only [Option.bind_some, Option.bind_eq_bind] at h
        have : y :: zs = ys := by
          simpa using h
        subst this
        exact List.Forall₂.cons hfx (ih hrest)

theorem forall₂_mem_right {α β : Type _} {R : α → β → Prop} :
    ∀ {l1 : List α} {l2 : List β}, List.Forall₂ R l1 l2 →
      ∀ {y}, y ∈ l2 → ∃ x ∈ l1, R x y := by
  intro l1 l2 h
  induction h with
  | nil => intro y hy; cases hy
  | cons hr _ ih =>
    intro y hy
    rcases List.mem_cons.mp hy with rfl | hy2
    · exact ⟨_, List.mem_cons_self _ _, hr⟩
    · obtain ⟨x, hx, hrx⟩ := ih hy2
      exact ⟨x, List.mem_cons_of_mem _ hx, hrx⟩

theorem extend_field_eq {d od d2 : FieldData} (h : d.extend od = some d2) :
    d2 = ⟨d.dtype, d.values ++ od.values⟩ := by
  unfold FieldData.extend at h
  by_cases hty : d.dtype = od.dtype
  · simp only [hty, if_true] at h
    cases h
    rw [hty]
  · simp [hty] at h

/-- **C10** (implicit).  Every transforming operation except `copy_from`
preserves the uniform-row-count invariant: after `sort`, `truncate`, `filter`,
`dedup`, a successful `projection`, a successful `extend`, and a successful
`add_field`, all fields again share a single row count. -/
theorem C10_uniform_preserved (c : Cells) (hc : c.uniform) :
    (∀ keys : List String, (c.sort keys).uniform) ∧
    (∀ l : Nat, (c.truncate l).uniform) ∧
    (∀ s : VarBitSet, (c.filter s).uniform) ∧
    (∀ keys : List String, (c.dedup keys).uniform) ∧
    (∀ (names : List String) (p : Cells),
      c.projection names = some p → p.uniform) ∧
    (∀ o e : Cells, o.uniform → c.extend o = some e → e.uniform) ∧
    (∀ (k : String) (v : FieldData) (c2 : Cells),
      c.add_field k v = some c2 → c2.uniform) := by
  refine ⟨?_, ?_, ?_, ?_, ?_, ?_, ?_⟩
  · -- sort
    intro keys
    apply uniform_of_all_eq _ ((c.sortIndices keys).length)
    intro p hp
    rw [List.mem_map] at hp
    obtain ⟨q, _, hpq⟩ := hp
    subst hpq
    show ((c.sortIndices keys).map _).length = _
    rw [List.length_map]
  · -- truncate
    intro l
    apply uniform_of_all_eq _ (min l c.len)
    intro p hp
    rw [List.mem_map] at hp
    obtain ⟨q, hq, hpq⟩ := hp
    subst hpq
    show (q.2.values.take l).length = _
    rw [List.length_take]
    have h := hc q hq
    simp only [FieldData.len] at h
    rw [h]
  · -- filter
    exact filter_uniform c hc
  · -- dedup
    intro keys
    unfold Cells.dedup
    by_cases h : c.is_empty = true
    · simp only [h, if_true]
      exact hc
    · simp only [h, Bool.false_eq_true, if_false]
      exact filter_uniform c hc _
  · -- projection
    intro names p hp
    unfold Cells.projection at hp
    cases hm : names.mapM fun f => (lookupField c.fields f).map
        fun data => (f, data) with
    | none => rw [hm] at hp; cases hp
    | some fs =>
      rw [hm] at hp
      simp only [Option.map_some'] at hp
      cases hp
      apply uniform_of_all_eq _ c.len
      intro q hq
      obtain ⟨name, _, hr⟩ := forall₂_mem_right (mapM_option_forall₂ hm) hq
      cases hlk : lookupField c.fields name with
      | none => rw [hlk] at hr; cases hr
      | some d =>
        rw [hlk] at hr
        simp only [Option.map_some'] at hr
        cases hr
        exact hc (name, d) (lookupField_mem hlk)
  · -- extend
    intro o e ho he
    unfold Cells.extend at he
    cases hm : c.fields.mapM fun p => do
        let od ← lookupField o.fields p.1
        let d ← p.2.extend od
        pure (p.1, d) with
    | none =>
      rw [hm] at he
      simp at he
    | some fs =>
      rw [hm] at he
      have he2 : (if o.fields.length = c.fields.length then
          some (Cells.mk fs) else none) = some e := by
        simpa using he
      by_cases hlen : o.fields.length = c.fields.length
      · rw [if_pos hlen] at he2
        cases he2
        apply uniform_of_all_eq _ (c.len + o.len)
        intro q hq
        obtain ⟨p, hp, hr⟩ := forall₂_mem_right (mapM_option_forall₂ hm) hq
        cases hlk : lookupField o.fields p.1 with
        | none =>
          rw [hlk] at hr
          simp at hr
        | some od =>
          rw [hlk] at hr
          have hr2 : (p.2.extend od >>= fun d => some (p.1, d)) = some q := by
            simpa using hr
          cases hext : p.2.extend od with
          | none => rw [hext] at hr2; simp at hr2
          | some d =>
            rw [hext] at hr2
            have hq2 : (p.1, d) = q := by simpa using hr2
            subst hq2
            have hd := extend_field_eq hext
            subst hd
            show (p.2.values ++ od.values).length = _
            rw [List.length_append]
            have h1 : p.2.values.length = c.len := hc p hp
            have h2 : od.values.length = o.len :=
              ho (p.1, od) (lookupField_mem hlk)
            rw [h1, h2]
      · rw [if_neg hlen] at he2
        cases he2
  · -- add_field
    intro k v c2 h2
    unfold Cells.add_field at h2
    by_cases hl : c.len = v.len
    · have hcond : ¬(c.len ≠ v.len) := fun hne => hne hl
      rw [if_neg hcond] at h2
      by_cases hk : (lookupField c.fields k).isSome
      · rw [if_pos hk] at h2
        cases h2
      · rw [if_neg hk] at h2
        cases h2
        apply uniform_of_all_eq _ c.len
        intro p hp
        rcases List.mem_append.mp hp with hpo | hpn
        · exact hc p hpo
        · rw [List.mem_singleton] at hpn
          subst hpn
          exact hl.symm
    · rw [if_pos hl] at h2
      cases h2

theorem C10_uniform_preserved_witness :
    (tieCells.sort ["a"]).uniform ∧
      (tieCells.truncate 1).uniform ∧
      (tieCells.filter [true, false]).uniform ∧
      (tieCells.dedup ["a"]).uniform ∧
      tieCells.uniform ∧
      (Cells.mk [("a", ⟨PhysType.uint8,
        [PhysValue.bits 5, PhysValue.bits 5, PhysValue.bits 5,
          PhysValue.bits 5]⟩)]).uniform ∧
      (Cells.mk (tieCells.fields ++
        [("b", ⟨PhysType.uint8, [PhysValue.bits 1, PhysValue.bits 2]⟩)])).uniform :=
  ⟨(C10_uniform_preserved tieCells (by unfold Cells.uniform; decide)).1 ["a"],
    (C10_uniform_preserved tieCells (by unfold Cells.uniform; decide)).2.1 1,
    (C10_uniform_preserved tieCells (by unfold Cells.uniform; decide)).2.2.1 [true, false],
    (C10_uniform_preserved tieCells (by unfold Cells.uniform; decide)).2.2.2.1 ["a"],
    (C10_uniform_preserved tieCells (by unfold Cells.uniform; decide)).2.2.2.2.1 ["a"] tieCells
      (by rfl),
    (C10_uniform_preserved tieCells (by unfold Cells.uniform; decide)).2.2.2.2.2.1 tieCells
      (Cells.mk [("a", ⟨PhysType.uint8,
        [PhysValue.bits 5, PhysValue.bits 5, PhysValue.bits 5,
          PhysValue.bits 5]⟩)]) (by unfold Cells.uniform; decide) (by rfl),
    (C10_uniform_preserved tieCells (by unfold Cells.uniform; decide)).2.2.2.2.2.2 "b"
      ⟨PhysType.uint8, [PhysValue.bits 1, PhysValue.bits 2]⟩
      (Cells.mk (tieCells.fields ++
        [("b", ⟨PhysType.uint8, [PhysValue.bits 1, PhysValue.bits 2]⟩)]))
      (by rfl)⟩

/-! ## Claim theorem: group identification (C5) -/

/-- The scan over a contiguous index range produces boundaries with the
interval property (all rows up to the next boundary are indistinct from the
boundary row) and the separation property (each kept boundary is distinct
from the previous one). -/
theorem scanMarksGo_range'_chains (d : Nat → Nat → Bool)
    (hrefl : ∀ t, d t t = false) :
    ∀ (k s cur : Nat), cur < s →
      (∀ t, cur ≤ t → t < s → d t cur = false) →
      List.Chain' (fun a b => ∀ t, a ≤ t → t < b → d t a = false)
          (cur :: scanMarksGo d cur (List.range' s k) ++ [s + k]) ∧
        List.Chain' (fun a b => d b a = true)
          (cur :: scanMarksGo d cur (List.range' s k)) := by
  intro k
  induction k with
  | zero =>
    intro s cur hcs hprev
    constructor
    · show List.Chain' _ (cur :: [] ++ [s + 0])
      rw [Nat.add_zero]
      exact List.chain'_pair.mpr hprev
    · exact List.chain'_singleton cur
  | succ k ih =>
    intro s cur hcs hprev
    rw [List.range'_succ]
    simp only [scanMarksGo]
    by_cases hds : d s cur = true
    · simp only [hds, if_true]
      have ihs := ih (s + 1) s (by omega) (fun t ht1 ht2 => by
        have hts : t = s := by omega
        subst hts
        exact hrefl t)
      have harith : s + 1 + k = s + (k + 1) := by omega
      rw [harith] at ihs
      constructor
      · rw [List.cons_append]
        rw [List.chain'_cons']
        constructor
        · intro y hy
          simp only [List.cons_append, List.head?_cons,
            Option.mem_def, Option.some_inj] at hy
          subst hy
          exact hprev
        · exact ihs.1
      · rw [List.chain'_cons']
        constructor
        · intro y hy
          simp only [List.head?_cons, Option.mem_def, Option.some_inj] at hy
          subst hy
          exact hds
        · exact ihs.2
    · simp only [Bool.not_eq_true] at hds
      simp only [hds, Bool.false_eq_true, if_false]
      have ihs := ih (s + 1) cur (by omega) (fun t ht1 ht2 => by
        rcases Nat.lt_or_ge t s with h | h
        · exact hprev t ht1 h
        · have hts : t = s := by omega
          subst hts
          exact hds)
      have harith : s + 1 + k = s + (k + 1) := by omega
      rw [harith] at ihs
      exact ihs

theorem is_empty_false_len_pos {c : Cells} (h : c.is_empty = false) :
    0 < c.len := by
  unfold Cells.is_empty at h
  unfold Cells.len
  cases hf : c.fields with
  | nil => rw [hf] at h; cases h
  | cons p rest =>
    rw [hf] at h
    obtain ⟨k, d⟩ := p
    show 0 < d.len
    unfold FieldData.len
    have h2 : d.values.isEmpty = false := h
    cases hv : d.values with
    | nil => rw [hv] at h2; cases h2
    | cons v vs => simp

/-- **C5.** `identify_groups` returns `None` iff the collection is empty;
otherwise the boundary sequence starts at `0`, ends at `len()`, is strictly
increasing, every row inside an interval is bit-equal on all key fields to
the interval's first row, and the first rows of adjacent intervals differ on
at least one key field. -/
theorem C5_identify_groups (c : Cells) (keys : List String) :
    (c.identify_groups keys = none ↔ c.is_empty = true) ∧
      ∀ gs, c.identify_groups keys = some gs →
        gs.head? = some 0 ∧
        gs.getLast? = some c.len ∧
        List.Chain' (· < ·) gs ∧
        List.Chain' (fun a b => ∀ i, a ≤ i → i < b →
          rowDistinct c keys i a = false) gs ∧
        List.Chain' (fun a b => b < c.len → rowDistinct c keys b a = true) gs := by
  constructor
  · unfold Cells.identify_groups
    by_cases h : c.is_empty = true <;> simp [h]
  · intro gs hgs
    unfold Cells.identify_groups at hgs
    by_cases h : c.is_empty = true
    · rw [if_pos h] at hgs; cases hgs
    · rw [if_neg h] at hgs
      cases hgs
      simp only [Bool.not_eq_true] at h
      have hn : 0 < c.len := is_empty_false_len_pos h
      obtain ⟨m, hm⟩ := Nat.exists_eq_add_of_lt hn
      have hrange : List.range c.len = 0 :: List.range' 1 m := by
        rw [List.range_eq_range', hm]
        rw [show 0 + m + 1 = m + 1 by omega, List.range'_succ]
      have hchains := scanMarksGo_range'_chains (rowDistinct c keys)
        (rowDistinct_self c keys) m 1 0 (by omega)
        (fun t ht1 ht2 => by
          have ht : t = 0 := by omega
          subst ht
          exact rowDistinct_self c keys 0)
      rw [show 1 + m = c.len by omega] at hchains
      have hmarks : scanMarks (rowDistinct c keys) (List.range c.len) =
          0 :: scanMarksGo (rowDistinct c keys) 0 (List.range' 1 m) := by
        rw [hrange]; rfl
      refine ⟨?_, ?_, ?_, ?_, ?_⟩
      · rw [hmarks]; rfl
      · exact List.getLast?_concat _
      · -- strictly increasing
        apply List.Pairwise.chain'
        rw [List.pairwise_append]
        refine ⟨?_, List.pairwise_singleton _ _, ?_⟩
        · exact (List.pairwise_lt_range c.len).sublist (scanMarks_sublist _ _)
        · intro a ha b hb
          rw [List.mem_singleton] at hb
          subst hb
          have := (scanMarks_sublist (rowDistinct c keys)
            (List.range c.len)).subset ha
          rw [List.mem_range] at this
          exact this
      · rw [hmarks, List.cons_append]
        exact hchains.1
      · rw [hmarks]
        rw [List.chain'_append]
        refine ⟨hchains.2.imp ?_, List.chain'_singleton _, ?_⟩
        · intro a b hab _
          exact hab
        · intro x _ y hy
          simp only [List.head?_cons, Option.mem_def, Option.some_inj] at hy
          subst hy
          intro hlt
          exact absurd hlt (by omega)

theorem C5_identify_groups_witness :
    ([0, 2] : List Nat).head? = some 0 ∧
      ([0, 2] : List Nat).getLast? = some tieCells.len ∧
      List.Chain' (· < ·) [0, 2] ∧
      List.Chain' (fun a b => ∀ i, a ≤ i → i < b →
        rowDistinct tieCells ["a"] i a = false) [0, 2] ∧
      List.Chain' (fun a b => b < tieCells.len →
        rowDistinct tieCells ["a"] b a = true) [0, 2] :=
  (C5_identify_groups tieCells ["a"]).2 [0, 2] (by rfl)

/-! ## Claim theorem: dedup (C1) -/

/-- The rows marked by `dedup`'s scan over the stably sorted index vector are
exactly the first occurrences of each key-combination. -/
theorem mem_marks_iff_firstOcc (c : Cells) (keys : List String) (z : Nat) :
    z ∈ scanMarks (rowDistinct c keys) (c.sortIndices keys) ↔
      z < c.len ∧ firstOcc c keys z = true := by
  have hd_symm : ∀ a b, rowDistinct c keys a b = rowDistinct c keys b a :=
    rowDistinct_symm c keys
  have hd_trans : ∀ a b e, rowDistinct c keys a b = false →
      rowDistinct c keys b e = false → rowDistinct c keys a e = false :=
    fun a b e h1 h2 => rowDistinct_trans h1 h2
  have hkernel : ∀ a b, rowLE c keys a b = true → rowLE c keys b a = true →
      rowDistinct c keys a b = false :=
    fun a b h1 h2 => index_comparator_eq_iff.mp (eq_of_rowLE_both h1 h2)
  have hE_le : ∀ a b, rowDistinct c keys a b = false →
      rowLE c keys a b = true :=
    fun a b h => rowLE_of_eq (index_comparator_eq_iff.mpr h)
  have hcore := mem_scanMarks hd_symm hd_trans hkernel hE_le
    (rowLE_trans c keys) (c.sortIndices keys) z
    (sortIndices_pairwise c keys) (sortIndices_nodup c keys)
  rw [hcore]
  constructor
  · rintro ⟨hz, hcond⟩
    rw [sortIndices_mem] at hz
    refine ⟨hz, ?_⟩
    unfold firstOcc
    rw [List.all_eq_true]
    intro j hj
    rw [List.mem_range] at hj
    by_contra hne
    simp only [Bool.not_eq_true] at hne
    have hle : rowLE c keys j z = true :=
      hE_le j z (by rw [hd_symm]; exact hne)
    have hsub : [j, z] <+ c.sortIndices keys :=
      pair_sublist_sortIndices hle hj hz
    rw [hcond j hsub] at hne
    cases hne
  · rintro ⟨hz, hfo⟩
    refine ⟨sortIndices_mem.mpr hz, ?_⟩
    intro w hw
    by_contra hne
    simp only [Bool.not_eq_true] at hne
    have hwmem : w ∈ c.sortIndices keys := hw.subset (by simp)
    have hwn : w < c.len := sortIndices_mem.mp hwmem
    have hwz : w ≠ z := by
      intro hwz
      subst hwz
      have := (sortIndices_nodup c keys).sublist hw
      simp at this
    rcases Nat.lt_or_ge w z with hlt | hge
    · -- an earlier equal row contradicts `firstOcc`
      unfold firstOcc at hfo
      rw [List.all_eq_true] at hfo
      have := hfo w (List.mem_range.mpr hlt)
      rw [this] at hne
      cases hne
    · have hzw : z < w := by omega
      have hle : rowLE c keys z w = true :=
        rowLE_of_eq (index_comparator_eq_iff.mpr hne)
      have hsub2 : [z, w] <+ c.sortIndices keys :=
        pair_sublist_sortIndices hle hzw hwn
      exact hwz (pair_sublist_antisymm (sortIndices_nodup c keys) hw hsub2)

theorem getD_replicate_false (n i : Nat) :
    (List.replicate n false).getD i false = false := by
  rw [List.getD_eq_getElem?_getD]
  rcases Nat.lt_or_ge i n with h | h
  · rw [List.getElem?_eq_getElem (by simpa using h)]
    simp [List.getElem_replicate]
  · rw [List.getElem?_eq_none (by simpa using h)]
    rfl

/-- **C1.** For a non-empty field map whose columns share one row count,
`dedup` returns exactly the subset of rows that are the first occurrence of
their key-combination — one row per distinct combination under bit-equality,
each the row with the smallest original index, kept in original relative
order (the reference `refDedup` filters the original row order by the
first-occurrence predicate). -/
theorem C1_dedup (c : Cells) (keys : List String)
    (hne : c.fields ≠ []) (huni : c.uniform) :
    c.dedup keys = refDedup c keys := by
  unfold Cells.dedup
  by_cases hemp : c.is_empty = true
  · rw [if_pos hemp]
    have hlen0 : c.len = 0 := by
      unfold Cells.is_empty at hemp
      unfold Cells.len
      cases hf : c.fields with
      | nil => rfl
      | cons p rest =>
        rw [hf] at hemp
        obtain ⟨k, d⟩ := p
        have h2 : d.values.isEmpty = true := hemp
        show d.len = 0
        unfold FieldData.len
        rw [List.isEmpty_iff.mp h2]
        rfl
    unfold refDedup
    rw [hlen0]
    simp only [List.range_zero, List.filter_nil, List.map_nil]
    cases c with
    | mk fields =>
      congr 1
      conv_lhs => rw [← List.map_id fields]
      apply List.map_congr_left
      intro p hp
      have hv : p.2.values = [] := by
        have := huni p hp
        simp only [FieldData.len] at this
        rw [hlen0] at this
        exact List.length_eq_zero.mp this
      obtain ⟨k, d⟩ := p
      obtain ⟨dt, vals⟩ := d
      simp only at hv
      rw [hv]
      rfl
  · rw [if_neg hemp]
    show c.filter ((scanMarks (rowDistinct c keys) (c.sortIndices keys)).foldl
      (fun s z => VarBitSet.set s z)
      (VarBitSet.new_bitset (c.sortIndices keys).length)) = refDedup c keys
    unfold Cells.filter refDedup
    congr 1
    apply List.map_congr_left
    intro p hp
    unfold FieldData.filter
    have hplen : ((scanMarks (rowDistinct c keys)
        (c.sortIndices keys)).foldl (fun s z => VarBitSet.set s z)
        (VarBitSet.new_bitset (c.sortIndices keys).length)).length = c.len := by
      rw [length_foldl_set]
      unfold VarBitSet.new_bitset
      rw [List.length_replicate, sortIndices_length]
    have hvlen : p.2.values.length = c.len := by
      have := huni p hp
      simp only [FieldData.len] at this
      exact this
    congr 1
    rw [listFilterBits_eq default _ p.2.values (by rw [hplen, hvlen])]
    rw [hvlen]
    congr 1
    apply congrArg (List.map fun i => p.2.values.getD i default)
    apply List.filter_congr
    intro i hi
    rw [List.mem_range] at hi
    rw [getD_foldl_set]
    unfold VarBitSet.new_bitset
    rw [getD_replicate_false, List.length_replicate, sortIndices_length]
    simp only [Bool.false_or]
    rw [decide_eq_true hi]
    simp only [Bool.and_true]
    have hiff := mem_marks_iff_firstOcc c keys i
    by_cases hf : firstOcc c keys i = true
    · rw [hf]
      exact decide_eq_true (hiff.mpr ⟨hi, hf⟩)
    · simp only [Bool.not_eq_true] at hf
      rw [hf]
      apply decide_eq_false
      intro hmem
      rw [(hiff.mp hmem).2] at hf
      cases hf

/-- A concrete input for `dedup`: `k = [1, 1, 2, 2, 3]`, whose first
occurrences are original indices 0, 2 and 4. -/
def dedupCells : Cells :=
  ⟨[("k", ⟨PhysType.uint64,
    [PhysValue.bits 1, PhysValue.bits 1, PhysValue.bits 2, PhysValue.bits 2,
      PhysValue.bits 3]⟩)]⟩

theorem C1_dedup_witness :
    dedupCells.dedup ["k"] = refDedup dedupCells ["k"] :=
  C1_dedup dedupCells ["k"] (by simp [dedupCells])
    (by unfold Cells.uniform; decide)

/-! ## Claim theorem: count_distinct refinement (C6) -/

/-- Spec: remove adjacent bit-equal duplicates, keeping the first value of
each run (`Vec::dedup_by` with `bits_eq`). -/
def dedupBitsGo (prev : PhysValue) : List PhysValue → List PhysValue
  | [] => []
  | v :: vs =>
    if v.bits_eq prev then dedupBitsGo prev vs else v :: dedupBitsGo v vs

/-- Spec: the adjacent-duplicate removal over a whole column. -/
def dedupBits : List PhysValue → List PhysValue
  | [] => []
  | v :: vs => v :: dedupBitsGo v vs

/-- Spec: sort a column's values by bit-order. -/
def sortBitsValues (vs : List PhysValue) : List PhysValue :=
  vs.mergeSort fun a b => !(a.bits_cmp b == .gt)

/-- Spec: the reference computation for `count_distinct` on one field — sort
the column's values by bit-order and remove adjacent bit-equal duplicates. -/
def sortDedupCount (vs : List PhysValue) : Nat :=
  (dedupBits (sortBitsValues vs)).length

theorem dedupBitsGo_eq_scanMarksGo :
    ∀ (l : List PhysValue) (prev : PhysValue),
      dedupBitsGo prev l = scanMarksGo (fun a b => a.bits_ne b) prev l := by
  intro l
  induction l with
  | nil => intro prev; rfl
  | cons v vs ih =>
    intro prev
    cases h : v.bits_eq prev
    · have hcond : v.bits_ne prev = true := by
        simp [PhysValue.bits_ne, h]
      simp only [dedupBitsGo, scanMarksGo, hcond, h, Bool.false_eq_true,
        if_false, if_true]
      rw [ih]
    · have hcond : v.bits_ne prev = false := by
        simp [PhysValue.bits_ne, h]
      simp only [dedupBitsGo, scanMarksGo, hcond, h, Bool.false_eq_true,
        if_false, if_true]
      rw [ih]

theorem dedupBits_eq_scanMarks (l : List PhysValue) :
    dedupBits l = scanMarks (fun a b => a.bits_ne b) l := by
  cases l with
  | nil => rfl
  | cons v vs =>
    simp only [dedupBits, scanMarks]
    rw [dedupBitsGo_eq_scanMarksGo]

theorem scanMarksGo_map {α β : Type _} (E : β → β → Bool) (f : α → β) :
    ∀ (l : List α) (cur : α),
      (scanMarksGo (fun a b => E (f a) (f b)) cur l).map f =
        scanMarksGo E (f cur) (l.map f) := by
  intro l
  induction l with
  | nil => intro cur; rfl
  | cons y rest ih =>
    intro cur
    simp only [List.map_cons, scanMarksGo]
    by_cases h : E (f y) (f cur) = true
    · simp only [h, if_true, List.map_cons]
      rw [ih]
    · simp only [Bool.not_eq_true] at h
      simp only [h, Bool.false_eq_true, if_false]
      exact ih cur

theorem scanMarks_map {α β : Type _} (E : β → β → Bool) (f : α → β)
    (l : List α) :
    (scanMarks (fun a b => E (f a) (f b)) l).map f =
      scanMarks E (l.map f) := by
  cases l with
  | nil => rfl
  | cons x rest =>
    simp only [scanMarks, List.map_cons]
    rw [scanMarksGo_map]

theorem ordering_then_eq_right (o : Ordering) : o.then .eq = o := by
  cases o <;> rfl

/-- The boolean bit-order `≤` on values. -/
def valLE (a b : PhysValue) : Bool := !(a.bits_cmp b == .gt)

theorem valLE_iff {a b : PhysValue} :
    valLE a b = true ↔ a.bits_cmp b ≠ .gt := by
  cases h : a.bits_cmp b <;> simp only [valLE, h] <;> decide

theorem valLE_trans : ∀ a b e : PhysValue,
    valLE a b → valLE b e → valLE a e := by
  intro a b e h1 h2
  rw [valLE_iff] at h1 h2 ⊢
  exact bits_cmp_totalCmp.le_trans a b e h1 h2

theorem valLE_total : ∀ a b : PhysValue, valLE a b || valLE b a := by
  intro a b
  rcases bits_cmp_totalCmp.le_total a b with h | h
  · simp [valLE_iff.mpr h]
  · simp [valLE_iff.mpr h]

theorem valLE_antisymm {a b : PhysValue}
    (h1 : valLE a b = true) (h2 : valLE b a = true) : a = b := by
  rw [valLE_iff] at h1 h2
  exact bits_cmp_eq_iff.mp (bits_cmp_totalCmp.eq_of_le_of_ge h1 h2)

theorem filter_single_key :
    ∀ {fields : List (String × FieldData)} {k : String} {d : FieldData},
      (fields.map Prod.fst).Nodup →
      lookupField fields k = some d →
      fields.filter (fun p => [k].contains p.1) = [(k, d)] := by
  intro fields
  induction fields with
  | nil => intro k d _ hlk; cases hlk
  | cons q rest ih =>
    intro k d hnd hlk
    obtain ⟨k2, d2⟩ := q
    simp only [List.map_cons, List.nodup_cons] at hnd
    unfold lookupField at hlk
    by_cases hk : k2 = k
    · subst hk
      rw [if_pos rfl] at hlk
      have hd : d2 = d := by injection hlk
      subst hd
      rw [List.filter_cons]
      have hcont : ([k2].contains (k2, d2).1) = true := by
        simp [List.contains]
      rw [if_pos hcont]
      have hrest : rest.filter (fun p => [k2].contains p.1) = [] := by
        rw [List.filter_eq_nil_iff]
        intro a ha
        have : a.1 ≠ k2 := by
          intro heq
          apply hnd.1
          rw [← heq]
          exact List.mem_map_of_mem Prod.fst ha
        simp [List.contains, this]
      rw [hrest]
    · rw [if_neg hk] at hlk
      rw [List.filter_cons]
      have hcont : ([k].contains (k2, d2).1) = false := by
        simp only [List.contains_cons]
        simp
        exact hk
      rw [if_neg (by simp; exact hk)]
      exact ih hnd.2 hlk

theorem index_comparator_single (k : String) (d : FieldData) (a b : Nat) :
    (Cells.mk [(k, d)]).index_comparator [k] a b =
      PhysValue.bits_cmp (d.values.getD a default) (d.values.getD b default) := by
  show (PhysValue.bits_cmp
      ((fieldValues (Cells.mk [(k, d)]) k).getD a default)
      ((fieldValues (Cells.mk [(k, d)]) k).getD b default)).then
      ((Cells.mk [(k, d)]).index_comparator [] a b) = _
  have hfv : fieldValues (Cells.mk [(k, d)]) k = d.values := by
    unfold fieldValues lookupField
    rw [if_pos rfl]
  rw [hfv]
  show (PhysValue.bits_cmp _ _).then .eq = _
  rw [ordering_then_eq_right]

theorem rowLE_single (k : String) (d : FieldData) (a b : Nat) :
    rowLE (Cells.mk [(k, d)]) [k] a b =
      valLE (d.values.getD a default) (d.values.getD b default) := by
  unfold rowLE valLE
  rw [index_comparator_single]

/-- **C6.** `count_distinct` on a single present field equals the reference
count obtained by sorting that column's values in bit-order and removing
adjacent bit-equal duplicates. -/
theorem C6_count_distinct (c : Cells) (k : String) (d : FieldData)
    (hnd : (c.fields.map Prod.fst).Nodup)
    (hlk : lookupField c.fields k = some d)
    (huni : c.uniform) :
    c.count_distinct [k] = sortDedupCount d.values := by
  have hdlen : d.values.length = c.len := by
    have := huni (k, d) (lookupField_mem hlk)
    simpa [FieldData.len] using this
  unfold Cells.count_distinct
  by_cases hsmall : c.len ≤ 1
  · rw [if_pos hsmall]
    unfold sortDedupCount sortBitsValues
    rcases Nat.le_one_iff_eq_zero_or_eq_one.mp hsmall with h0 | h1
    · rw [h0]
      rw [h0] at hdlen
      rw [List.length_eq_zero.mp hdlen, List.mergeSort_nil]
      rfl
    · rw [h1]
      rw [h1] at hdlen
      obtain ⟨v, hv⟩ := List.length_eq_one.mp hdlen
      rw [hv, List.mergeSort_singleton]
      rfl
  · rw [if_neg hsmall]
    rw [filter_single_key hnd hlk]
    show (scanMarks (rowDistinct ((Cells.mk [(k, d)]).sorted [k]) [k])
      (List.range ((Cells.mk [(k, d)]).sorted [k]).len)).length = _
    have hsorted : (Cells.mk [(k, d)]).sorted [k] =
        Cells.mk [(k, d.permute ((Cells.mk [(k, d)]).sortIndices [k]))] := rfl
    have hcl : (Cells.mk [(k, d)]).len = d.values.length := rfl
    have hidxlen : ((Cells.mk [(k, d)]).sortIndices [k]).length =
        d.values.length := by rw [sortIndices_length, hcl]
    have hKClen : ((Cells.mk [(k, d)]).sorted [k]).len =
        ((Cells.mk [(k, d)]).sortIndices [k]).length := by
      rw [hsorted]
      show (d.permute ((Cells.mk [(k, d)]).sortIndices [k])).len = _
      simp [FieldData.permute, FieldData.len]
    have hfv : fieldValues ((Cells.mk [(k, d)]).sorted [k]) k =
        ((Cells.mk [(k, d)]).sortIndices [k]).map
          fun i => d.values.getD i default := by
      rw [hsorted]
      unfold fieldValues lookupField
      rw [if_pos rfl]
      rfl
    have hrowd : rowDistinct ((Cells.mk [(k, d)]).sorted [k]) [k] =
        fun i j => PhysValue.bits_ne
          ((((Cells.mk [(k, d)]).sortIndices [k]).map
            fun i => d.values.getD i default).getD i default)
          ((((Cells.mk [(k, d)]).sortIndices [k]).map
            fun i => d.values.getD i default).getD j default) := by
      funext i j
      simp only [rowDistinct, List.any_cons, List.any_nil, Bool.or_false, hfv]
    rw [hrowd, hKClen]
    -- rewrite the scan over indices as a scan over the mapped value list
    have hsvlen : (((Cells.mk [(k, d)]).sortIndices [k]).map
        fun i => d.values.getD i default).length =
          ((Cells.mk [(k, d)]).sortIndices [k]).length := List.length_map _ _
    rw [← hsvlen]
    have hmapped := scanMarks_map (fun a b => PhysValue.bits_ne a b)
      (fun i => (((Cells.mk [(k, d)]).sortIndices [k]).map
        fun i => d.values.getD i default).getD i default)
      (List.range ((((Cells.mk [(k, d)]).sortIndices [k]).map
        fun i => d.values.getD i default)).length)
    rw [map_getD_range] at hmapped
    have hlen_eq := congrArg List.length hmapped
    rw [List.length_map] at hlen_eq
    rw [hlen_eq]
    -- the sorted value list is the reference mergeSort
    have hsveq : (((Cells.mk [(k, d)]).sortIndices [k]).map
        fun i => d.values.getD i default) = sortBitsValues d.values := by
      haveI inst : IsAntisymm PhysValue (fun a b => valLE a b = true) :=
        ⟨fun a b h1 h2 => valLE_antisymm h1 h2⟩
      apply List.eq_of_perm_of_sorted (r := fun a b => valLE a b = true)
      · have hp := (sortIndices_perm (Cells.mk [(k, d)]) [k]).map
          fun i => d.values.getD i default
        rw [hcl, map_getD_range] at hp
        exact hp.trans (List.mergeSort_perm d.values _).symm
      · show List.Pairwise (fun a b => valLE a b = true) _
        rw [List.pairwise_map]
        apply (sortIndices_pairwise (Cells.mk [(k, d)]) [k]).imp
        intro a b hab
        rw [rowLE_single] at hab
        exact hab
      · show List.Pairwise (fun a b => valLE a b = true) _
        have := List.sorted_mergeSort valLE_trans valLE_total d.values
        apply this.imp
        intro a b hab
        exact hab
    rw [hsveq, sortDedupCount, dedupBits_eq_scanMarks]

theorem C6_count_distinct_witness :
    dedupCells.count_distinct ["k"] =
      sortDedupCount [PhysValue.bits 1, PhysValue.bits 1, PhysValue.bits 2,
        PhysValue.bits 2, PhysValue.bits 3] :=
  C6_count_distinct dedupCells "k"
    ⟨PhysType.uint64, [PhysValue.bits 1, PhysValue.bits 1, PhysValue.bits 2,
      PhysValue.bits 2, PhysValue.bits 3]⟩
    (by decide) (by rfl) (by unfold Cells.uniform; decide)

/-! ## Claim theorem: view equality (C2) -/

/-- Spec (§4.4): the equality contract for views — (a) equal row-range
lengths, (b) every key field of the first view is matched in the second
view's cells by a field of the same name whose row-range slice is bit-equal
(element-wise equality of bit representations under the same physical type,
so a NaN equals an identical NaN pattern while +0.0 and -0.0 differ), and
(c) equally many key fields.  A key missing from the second view's cells
simply falsifies (b). -/
def viewEqSpec (v1 v2 : CellsView) : Prop :=
  v1.stop - v1.start = v2.stop - v2.start ∧
  (∀ k ∈ v1.keys, ∃ d1 d2,
    lookupField v1.cells.fields k = some d1 ∧
    lookupField v2.cells.fields k = some d2 ∧
    (d1.slice v1.start (v1.stop - v1.start)).bits_eq
      (d2.slice v2.start (v2.stop - v2.start)) = true) ∧
  v1.keys.length = v2.keys.length

/-- **C2.** The source equality test on views agrees exactly with the
specification's contract, for any view whose own keys were validated at
construction. -/
theorem C2_view_eq (v1 v2 : CellsView)
    (hkeys : ∀ k ∈ v1.keys, (lookupField v1.cells.fields k).isSome = true) :
    CellsView.eq v1 v2 = true ↔ viewEqSpec v1 v2 := by
  unfold CellsView.eq viewEqSpec
  by_cases hlen : (v1.stop - v1.start) ≠ (v2.stop - v2.start)
  · rw [if_pos hlen]
    constructor
    · intro h; cases h
    · rintro ⟨h, _, _⟩
      exact absurd h hlen
  · rw [if_neg hlen]
    have hl : v1.stop - v1.start = v2.stop - v2.start := not_not.mp hlen
    rw [Bool.and_eq_true, List.all_eq_true]
    constructor
    · rintro ⟨hall, hcount⟩
      refine ⟨hl, ?_, by simpa using hcount⟩
      intro k hk
      have h := hall k hk
      cases h1 : lookupField v1.cells.fields k with
      | none => rw [h1] at h; cases h
      | some d1 =>
        rw [h1] at h
        cases h2 : lookupField v2.cells.fields k with
        | none => rw [h2] at h; cases h
        | some d2 =>
          rw [h2] at h
          refine ⟨d1, d2, rfl, rfl, ?_⟩
          unfold FieldData.bits_eq FieldData.slice
          exact h
    · rintro ⟨_, hforall, hcount⟩
      constructor
      · intro k hk
        obtain ⟨d1, d2, h1, h2, hbe⟩ := hforall k hk
        rw [h1, h2]
        unfold FieldData.bits_eq FieldData.slice at hbe
        exact hbe
      · simpa using hcount

/-- Cells used to witness the view-equality contract at a NaN bit pattern
(`0x7fc00000`, the canonical `f32` NaN). -/
def nanCells : Cells :=
  ⟨[("x", ⟨PhysType.float32, [PhysValue.bits 0x7fc00000]⟩)]⟩

theorem C2_view_eq_witness :
    CellsView.eq (CellsView.mk nanCells ["x"] 0 1)
        (CellsView.mk nanCells ["x"] 0 1) = true ↔
      viewEqSpec (CellsView.mk nanCells ["x"] 0 1)
        (CellsView.mk nanCells ["x"] 0 1) :=
  C2_view_eq (CellsView.mk nanCells ["x"] 0 1)
    (CellsView.mk nanCells ["x"] 0 1)
    (by intro k hk
        rw [List.mem_singleton] at hk
        subst hk
        rfl)

/-! ## Claim theorem: copy_from (C3) -/

theorem lookupField_append_single (fs : List (String × FieldData))
    (k0 k : String) (d0 : FieldData) :
    lookupField (fs ++ [(k0, d0)]) k =
      match lookupField fs k with
      | some d => some d
      | none => if k0 = k then some d0 else none := by
  induction fs with
  | nil => rfl
  | cons p rest ih =>
    obtain ⟨k2, d2⟩ := p
    show (if k2 = k then some d2 else lookupField (rest ++ [(k0, d0)]) k) = _
    by_cases hk : k2 = k
    · simp only [hk, if_true]
      show _ = (match (if k = k then some d2 else lookupField rest k) with
        | some d => some d
        | none => if k0 = k then some d0 else none)
      rw [if_pos rfl]
    · simp only [hk, if_false]
      rw [ih]
      show _ = (match (if k2 = k then some d2 else lookupField rest k) with
        | some d => some d
        | none => if k0 = k then some d0 else none)
      rw [if_neg hk]

theorem lookupField_update (fs : List (String × FieldData))
    (k0 k : String) (x : FieldData) :
    lookupField (updateField fs k0 x) k =
      if k0 = k then (lookupField fs k).map fun _ => x
      else lookupField fs k := by
  induction fs with
  | nil =>
    show (none : Option FieldData) = if k0 = k then none else none
    by_cases hk : k0 = k <;> simp [hk]
  | cons p rest ih =>
    obtain ⟨k2, d2⟩ := p
    show lookupField ((if k2 = k0 then (k2, x) else (k2, d2)) ::
        updateField rest k0 x) k = _
    by_cases h20 : k2 = k0 <;> by_cases hk2 : k2 = k
    · subst h20
      subst hk2
      rw [if_pos rfl]
      simp [lookupField]
    · subst h20
      rw [if_pos rfl]
      simp [lookupField, hk2, ih]
    · subst hk2
      have hk0 : ¬ k0 = k2 := fun h => h20 h.symm
      rw [if_neg h20]
      simp [lookupField, h20, hk0]
    · rw [if_neg h20]
      by_cases hk0 : k0 = k
      · subst hk0
        simp [lookupField, h20, hk2, ih]
      · simp [lookupField, h20, hk2, hk0, ih]

theorem lookupField_eq_none_of_not_mem {fs : List (String × FieldData)}
    {k : String} (h : k ∉ fs.map Prod.fst) : lookupField fs k = none := by
  induction fs with
  | nil => rfl
  | cons p rest ih =>
    obtain ⟨k2, d2⟩ := p
    simp only [List.map_cons, List.mem_cons] at h
    push_neg at h
    show (if k2 = k then some d2 else lookupField rest k) = none
    rw [if_neg (fun he => h.1 he.symm)]
    exact ih h.2

theorem copyFrom_fold_spec :
    ∀ (ofs fs : List (String × FieldData)),
      (ofs.map Prod.fst).Nodup →
      (∀ k d1 d2, lookupField fs k = some d1 →
        lookupField ofs k = some d2 → d1.dtype = d2.dtype) →
      ∃ res, (ofs.foldlM (fun acc (p : String × FieldData) =>
          copyFromStep acc p.1 p.2) fs) = some res ∧
        (∀ k, lookupField ofs k = none →
          lookupField res k = lookupField fs k) ∧
        (∀ k d2, lookupField ofs k = some d2 → lookupField fs k = none →
          lookupField res k = some d2) ∧
        (∀ k d1 d2, lookupField ofs k = some d2 →
          lookupField fs k = some d1 →
          lookupField res k = some (if d1.len ≤ d2.len then d2
            else ⟨d1.dtype, d2.values ++ d1.values.drop d2.len⟩)) := by
  intro ofs
  induction ofs with
  | nil =>
    intro fs _ _
    refine ⟨fs, by simp, fun k _ => rfl, ?_, ?_⟩
    · intro k d2 h; cases h
    · intro k d1 d2 h; cases h
  | cons q rest ih =>
    intro fs hnd hty
    obtain ⟨k0, d0⟩ := q
    simp only [List.map_cons, List.nodup_cons] at hnd
    have hlk0 : lookupField ((k0, d0) :: rest) k0 = some d0 := by
      show (if k0 = k0 then some d0 else _) = _
      rw [if_pos rfl]
    have hlkne : ∀ k, ¬ k0 = k →
        lookupField ((k0, d0) :: rest) k = lookupField rest k := by
      intro k hk
      show (if k0 = k then some d0 else _) = _
      rw [if_neg hk]
    have hrest0 : lookupField rest k0 = none :=
      lookupField_eq_none_of_not_mem hnd.1
    cases hstep : copyFromStep fs k0 d0 with
    | none =>
      exfalso
      unfold copyFromStep at hstep
      cases hmine : lookupField fs k0 with
      | none =>
        rw [hmine] at hstep
        simp only at hstep
        cases hstep
      | some mine =>
        rw [hmine] at hstep
        simp only at hstep
        rw [if_pos (hty k0 mine d0 hmine hlk0)] at hstep
        cases hstep
    | some fs1 =>
      have hA : ∀ k, ¬ k0 = k → lookupField fs1 k = lookupField fs k := by
        intro k hk
        unfold copyFromStep at hstep
        cases hmine : lookupField fs k0 with
        | none =>
          rw [hmine] at hstep
          simp only at hstep
          cases hstep
          rw [lookupField_append_single]
          cases hfk : lookupField fs k with
          | none => rw [if_neg hk]
          | some d => rfl
        | some mine =>
          rw [hmine] at hstep
          simp only at hstep
          rw [if_pos (hty k0 mine d0 hmine hlk0)] at hstep
          cases hstep
          rw [lookupField_update, if_neg hk]
      have hB : lookupField fs1 k0 = some (match lookupField fs k0 with
          | none => d0
          | some mine => if mine.len ≤ d0.len then d0
              else ⟨mine.dtype, d0.values ++ mine.values.drop d0.len⟩) := by
        unfold copyFromStep at hstep
        cases hmine : lookupField fs k0 with
        | none =>
          rw [hmine] at hstep
          simp only at hstep
          cases hstep
          rw [lookupField_append_single, hmine, if_pos rfl]
        | some mine =>
          rw [hmine] at hstep
          simp only at hstep
          rw [if_pos (hty k0 mine d0 hmine hlk0)] at hstep
          cases hstep
          rw [lookupField_update, if_pos rfl, hmine]
          rfl
      have hty1 : ∀ k d1 d2, lookupField fs1 k = some d1 →
          lookupField rest k = some d2 → d1.dtype = d2.dtype := by
        intro k d1 d2 h1 h2
        have hkmem : k ∈ rest.map Prod.fst :=
          List.mem_map_of_mem Prod.fst (lookupField_mem h2)
        have hk : ¬ k0 = k := fun h => hnd.1 (h ▸ hkmem)
        rw [hA k hk] at h1
        exact hty k d1 d2 h1 (by rw [hlkne k hk]; exact h2)
      obtain ⟨res, hres, hP0, hP1, hP2⟩ := ih fs1 hnd.2 hty1
      refine ⟨res, ?_, ?_, ?_, ?_⟩
      · rw [List.foldlM_cons, hstep]
        simpa using hres
      · intro k hk
        have hk0 : ¬ k0 = k := by
          intro h
          subst h
          rw [hlk0] at hk
          cases hk
        rw [hlkne k hk0] at hk
        rw [hP0 k hk, hA k hk0]
      · intro k d2 hk hfs
        by_cases hk0 : k0 = k
        · subst hk0
          rw [hlk0] at hk
          injection hk with hd2
          subst hd2
          rw [hP0 k0 hrest0, hB, hfs]
        · rw [hlkne k hk0] at hk
          exact hP1 k d2 hk (by rw [hA k hk0]; exact hfs)
      · intro k d1 d2 hk hfs
        by_cases hk0 : k0 = k
        · subst hk0
          rw [hlk0] at hk
          injection hk with hd2
          subst hd2
          rw [hP0 k0 hrest0, hB, hfs]
        · rw [hlkne k hk0] at hk
          exact hP2 k d1 d2 hk (by rw [hA k hk0]; exact hfs)

/-- **C3.** After `copy_from`: fields of `other` absent from `self` are
adopted unchanged; a field present in both with matching type is replaced
wholly by the incoming column when the existing one is not longer, and
otherwise has exactly its first `len(incoming)` rows overwritten with the
incoming rows while rows at index `>= len(incoming)` are unchanged; fields
of `self` not named in `other` are unchanged. -/
theorem C3_copy_from (c other : Cells)
    (hnd : (other.fields.map Prod.fst).Nodup)
    (hty : ∀ k d1 d2, lookupField c.fields k = some d1 →
      lookupField other.fields k = some d2 → d1.dtype = d2.dtype) :
    ∃ res : Cells, c.copy_from other = some res ∧
      (∀ k, lookupField other.fields k = none →
        lookupField res.fields k = lookupField c.fields k) ∧
      (∀ k d2, lookupField other.fields k = some d2 →
        lookupField c.fields k = none → lookupField res.fields k = some d2) ∧
      (∀ k d1 d2, lookupField c.fields k = some d1 →
        lookupField other.fields k = some d2 →
        (d1.len ≤ d2.len → lookupField res.fields k = some d2) ∧
        (d2.len < d1.len → ∃ f, lookupField res.fields k = some f ∧
          f.dtype = d1.dtype ∧ f.values.length = d1.values.length ∧
          f.values.take d2.len = d2.values ∧
          f.values.drop d2.len = d1.values.drop d2.len)) := by
  obtain ⟨r, hr, hP0, hP1, hP2⟩ :=
    copyFrom_fold_spec other.fields c.fields hnd hty
  refine ⟨Cells.mk r, ?_, hP0, fun k d2 h1 h2 => hP1 k d2 h1 h2, ?_⟩
  · unfold Cells.copy_from
    rw [hr]
    rfl
  · intro k d1 d2 h1 h2
    have hres := hP2 k d1 d2 h2 h1
    constructor
    · intro hle
      rw [hres, if_pos hle]
    · intro hlt
      have hnle : ¬ d1.len ≤ d2.len := by
        unfold FieldData.len at hlt ⊢
        omega
      rw [hres, if_neg hnle]
      refine ⟨⟨d1.dtype, d2.values ++ d1.values.drop d2.len⟩, rfl, rfl, ?_, ?_, ?_⟩
      · show (d2.values ++ d1.values.drop d2.len).length = _
        rw [List.length_append, List.length_drop]
        unfold FieldData.len at hlt ⊢
        omega
      · exact List.take_left' rfl
      · exact List.drop_left' rfl

/-- Concrete `copy_from` receiver and argument for the witness: the incoming
column `a` is shorter than the existing one, so only its first row is
overwritten. -/
def copySelf : Cells :=
  ⟨[("a", ⟨PhysType.uint8, [PhysValue.bits 1, PhysValue.bits 2]⟩)]⟩

def copyOther : Cells :=
  ⟨[("a", ⟨PhysType.uint8, [PhysValue.bits 9]⟩)]⟩

theorem C3_copy_from_witness :
    ∃ res : Cells, copySelf.copy_from copyOther = some res ∧
      (∀ k, lookupField copyOther.fields k = none →
        lookupField res.fields k = lookupField copySelf.fields k) ∧
      (∀ k d2, lookupField copyOther.fields k = some d2 →
        lookupField copySelf.fields k = none →
        lookupField res.fields k = some d2) ∧
      (∀ k d1 d2, lookupField copySelf.fields k = some d1 →
        lookupField copyOther.fields k = some d2 →
        (d1.len ≤ d2.len → lookupField res.fields k = some d2) ∧
        (d2.len < d1.len → ∃ f, lookupField res.fields k = some f ∧
          f.dtype = d1.dtype ∧ f.values.length = d1.values.length ∧
          f.values.take d2.len = d2.values ∧
          f.values.drop d2.len = d1.values.drop d2.len)) :=
  C3_copy_from copySelf copyOther (by decide)
    (by
      intro k d1 d2 h1 h2
      have hm : (k, d2) ∈ [("a", (⟨PhysType.uint8,
          [PhysValue.bits 9]⟩ : FieldData))] := lookupField_mem h2
      rw [List.mem_singleton] at hm
      injection hm with hk hd
      subst hk
      subst hd
      have h1' : some (⟨PhysType.uint8,
          [PhysValue.bits 1, PhysValue.bits 2]⟩ : FieldData) = some d1 := h1
      injection h1' with hd1
      rw [← hd1])

/-! ## Claim theorem: structured slicing (C4) -/

theorem mem_coordProd : ∀ {rs : List (Nat × Nat)} {coord : List Nat},
    coord ∈ coordProd rs →
      List.Forall₂ (fun ci (r : Nat × Nat) => r.1 ≤ ci ∧ ci < r.2) coord rs := by
  intro rs
  induction rs with
  | nil =>
    intro coord h
    simp only [coordProd, List.mem_singleton] at h
    subst h
    exact List.Forall₂.nil
  | cons r rest ih =>
    intro coord h
    simp only [coordProd, List.mem_flatMap] at h
    obtain ⟨c, hc, hcoord⟩ := h
    rw [List.mem_map] at hcoord
    obtain ⟨tail, htail, rfl⟩ := hcoord
    rw [List.mem_range'] at hc
    obtain ⟨i, hi, rfl⟩ := hc
    exact List.Forall₂.cons ⟨by omega, by omega⟩ (ih htail)

theorem forall₂_comp_trans {α β γ : Type _} {R : α → β → Prop}
    {S : β → γ → Prop} {T : α → γ → Prop}
    (h : ∀ a b g, R a b → S b g → T a g) :
    ∀ {l1 : List α} {l2 : List β} {l3 : List γ},
      List.Forall₂ R l1 l2 → List.Forall₂ S l2 l3 → List.Forall₂ T l1 l3 := by
  intro l1 l2 l3 h12
  induction h12 generalizing l3 with
  | nil =>
    intro h23
    cases h23
    exact List.Forall₂.nil
  | cons hR _ ih =>
    intro h23
    cases h23 with
    | cons hS htail => exact List.Forall₂.cons (h _ _ _ hR hS) (ih htail)

theorem flatIndex_lt_prod : ∀ {coord dims : List Nat},
    List.Forall₂ (fun ci d => ci < d) coord dims →
    flatIndex dims coord < dims.prod := by
  intro coord dims h
  induction h with
  | nil => show 0 < 1; omega
  | @cons c d cs ds hcd htail ih =>
    show flatIndex (d :: ds) (c :: cs) < (d :: ds).prod
    simp only [flatIndex, List.prod_cons]
    have h1 : flatIndex ds cs < ds.prod := ih
    have h2 : c + 1 ≤ d := hcd
    calc c * ds.prod + flatIndex ds cs < c * ds.prod + ds.prod := by omega
      _ = (c + 1) * ds.prod := by ring
      _ ≤ d * ds.prod := Nat.mul_le_mul_right ds.prod h2

theorem coordProd_eq_nil {rs : List (Nat × Nat)}
    (h : ∃ r ∈ rs, r.2 ≤ r.1) : coordProd rs = [] := by
  induction rs with
  | nil =>
    obtain ⟨r, hr, _⟩ := h
    cases hr
  | cons q rest ih =>
    obtain ⟨r, hr, hempty⟩ := h
    rcases List.mem_cons.mp hr with rfl | hmem
    · simp only [coordProd]
      have : r.2 - r.1 = 0 := by omega
      rw [this]
      rfl
    · simp only [coordProd]
      rw [ih ⟨r, hmem, hempty⟩]
      rw [List.flatMap_eq_nil_iff]
      intro x _
      rfl

theorem listFilterBits_replicate_false {α : Type _} :
    ∀ (n : Nat) (vs : List α),
      listFilterBits (List.replicate n false) vs = [] := by
  intro n
  induction n with
  | zero => intro vs; cases vs <;> rfl
  | succ n ih =>
    intro vs
    cases vs with
    | nil => rfl
    | cons v vs =>
      rw [List.replicate_succ]
      show (if false then v :: listFilterBits (List.replicate n false) vs
            else listFilterBits (List.replicate n false) vs) = []
      rw [if_neg (by simp)]
      exact ih vs

theorem len_filter_all_false (c : Cells) (n : Nat) :
    (c.filter (VarBitSet.new_bitset n)).len = 0 := by
  rcases hc : c.fields with _ | ⟨p, rest⟩
  · show Cells.len
      ⟨c.fields.map fun p => (p.1, p.2.filter (VarBitSet.new_bitset n))⟩ = 0
    rw [hc]
    rfl
  · show Cells.len
      ⟨c.fields.map fun p => (p.1, p.2.filter (VarBitSet.new_bitset n))⟩ = 0
    rw [hc]
    show (listFilterBits (List.replicate n false) p.2.values).length = 0
    rw [listFilterBits_replicate_false]
    rfl

theorem filter_fields_eq (c : Cells) (v : VarBitSet)
    (hc : c.uniform) (hv : v.length = c.len) :
    (c.filter v).fields = c.fields.map fun p =>
      (p.1, (⟨p.2.dtype,
        (((List.range c.len).filter fun i => v.getD i false).map
          fun i => p.2.values.getD i default)⟩ : FieldData)) := by
  show (c.fields.map fun p => (p.1, p.2.filter v)) = _
  apply List.map_congr_left
  intro p hp
  have hplen : p.2.values.length = c.len := hc p hp
  show (p.1, p.2.filter v) = _
  unfold FieldData.filter
  rw [listFilterBits_eq default v p.2.values (by rw [hv, hplen]), hplen]

/-- C4: for every `StructuredCells` whose dimension product equals the wrapped
row count and every range vector with one in-bounds range per dimension,
`slice` succeeds; the result keeps the original `dimensions` (not a shape
recomputed from the ranges); every column keeps exactly the rows whose flat
row-major index (last dimension fastest) is the index of a coordinate in the
cartesian product of the ranges, in original row order; every selected flat
index is in range; and if any range is empty the result has zero rows. -/
theorem C4_slice (sc : StructuredCells) (slices : List (Nat × Nat))
    (hlen : slices.length = sc.dimensions.length)
    (hprod : sc.dimensions.prod = sc.cells.len)
    (huni : sc.cells.uniform)
    (hbound : List.Forall₂ (fun (r : Nat × Nat) d => r.2 ≤ d) slices
      sc.dimensions) :
    ∃ res : StructuredCells, sc.slice slices = some res ∧
      res.dimensions = sc.dimensions ∧
      res.cells.fields = (sc.cells.fields.map fun p =>
        (p.1, (⟨p.2.dtype,
          (((List.range sc.cells.len).filter fun i =>
              decide (i ∈ (coordProd slices).map (flatIndex sc.dimensions))).map
            fun i => p.2.values.getD i default)⟩ : FieldData))) ∧
      (∀ m ∈ (coordProd slices).map (flatIndex sc.dimensions),
        m < sc.cells.len) ∧
      ((∃ r ∈ slices, r.2 ≤ r.1) → res.cells.len = 0) := by
  have hmarks : ∀ m ∈ (coordProd slices).map (flatIndex sc.dimensions),
      m < sc.cells.len := by
    intro m hm
    rw [List.mem_map] at hm
    obtain ⟨coord, hcoord, rfl⟩ := hm
    rw [← hprod]
    exact flatIndex_lt_prod
      (forall₂_comp_trans (fun a b g hab hbg => by omega)
        (mem_coordProd hcoord) hbound)
  refine ⟨⟨sc.dimensions,
      sc.cells.filter
        (((coordProd slices).map (flatIndex sc.dimensions)).foldl
          (fun s z => VarBitSet.set s z)
          (VarBitSet.new_bitset sc.cells.len))⟩, ?_, rfl, ?_, hmarks, ?_⟩
  · unfold StructuredCells.slice
    rw [if_pos hlen]
  · show (sc.cells.filter
        (((coordProd slices).map (flatIndex sc.dimensions)).foldl
          (fun s z => VarBitSet.set s z)
          (VarBitSet.new_bitset sc.cells.len))).fields = _
    have hpt : ∀ i ∈ List.range sc.cells.len,
        (((coordProd slices).map (flatIndex sc.dimensions)).foldl
            (fun s z => VarBitSet.set s z)
            (VarBitSet.new_bitset sc.cells.len)).getD i false =
          decide (i ∈ (coordProd slices).map (flatIndex sc.dimensions)) := by
      intro i hi
      rw [List.mem_range] at hi
      rw [getD_foldl_set]
      unfold VarBitSet.new_bitset
      rw [getD_replicate_false, List.length_replicate]
      simp only [Bool.false_or]
      rw [decide_eq_true hi]
      simp only [Bool.and_true]
    rw [filter_fields_eq sc.cells _ huni
      (by rw [length_foldl_set]; exact List.length_replicate _ _)]
    apply List.map_congr_left
    intro p hp
    congr 1
    congr 1
    apply congrArg (List.map fun i => p.2.values.getD i default)
    exact List.filter_congr hpt
  · intro hempt
    have h0 : coordProd slices = [] := coordProd_eq_nil hempt
    show (sc.cells.filter
        (((coordProd slices).map (flatIndex sc.dimensions)).foldl
          (fun s z => VarBitSet.set s z)
          (VarBitSet.new_bitset sc.cells.len))).len = 0
    rw [h0]
    show (sc.cells.filter (VarBitSet.new_bitset sc.cells.len)).len = 0
    exact len_filter_all_false sc.cells sc.cells.len

def sliceCells : Cells :=
  ⟨[("v", ⟨PhysType.uint64,
    [PhysValue.bits 0, PhysValue.bits 1, PhysValue.bits 2,
      PhysValue.bits 3, PhysValue.bits 4, PhysValue.bits 5]⟩)]⟩

/-- Witness for C4 at the spec's own example: dimensions `[2, 3]`, values
`[0..5]`, slicing rows `[0, 2)` of the first dimension and `[1, 3)` of the
second keeps the values `[1, 2, 4, 5]` in that order. -/
theorem C4_slice_witness :
    (∃ res : StructuredCells,
      StructuredCells.slice ⟨[2, 3], sliceCells⟩ [(0, 2), (1, 3)] =
          some res ∧
        res.dimensions = [2, 3] ∧
        res.cells.fields = (sliceCells.fields.map fun p =>
          (p.1, (⟨p.2.dtype,
            (((List.range sliceCells.len).filter fun i =>
                decide
                  (i ∈ (coordProd [(0, 2), (1, 3)]).map
                    (flatIndex [2, 3]))).map
              fun i => p.2.values.getD i default)⟩ : FieldData))) ∧
        (∀ m ∈ (coordProd [(0, 2), (1, 3)]).map (flatIndex [2, 3]),
          m < sliceCells.len) ∧
        ((∃ r ∈ [((0 : Nat), (2 : Nat)), (1, 3)], r.2 ≤ r.1) →
          res.cells.len = 0)) ∧
      StructuredCells.slice ⟨[2, 3], sliceCells⟩ [(0, 2), (1, 3)] =
        some ⟨[2, 3], ⟨[("v", ⟨PhysType.uint64,
          [PhysValue.bits 1, PhysValue.bits 2, PhysValue.bits 4,
            PhysValue.bits 5]⟩)]⟩⟩ :=
  ⟨C4_slice ⟨[2, 3], sliceCells⟩ [(0, 2), (1, 3)] rfl rfl
      (by unfold Cells.uniform; decide)
      (List.Forall₂.cons (by decide)
        (List.Forall₂.cons (by decide) List.Forall₂.nil)),
    by rfl⟩
